import Mathlib

/-
Verification of the subsequence-automata-with-default-transitions family
(general automaton, level-k automaton, alphabet-aware level automaton).

The definitions below are a shallow embedding of the Python sources:
  * `GeneralAutomaton.__init__` / `GeneralAutomaton.Compute`
  * `LevelAutomaton.__init__` / `LevelAutomaton._generateLevels` /
    `LevelAutomaton.Compute`
  * `AlphabetAwareLevelAutomaton.__init__` /
    `AlphabetAwareLevelAutomaton._generateLevels` /
    `AlphabetAwareLevelAutomaton.Compute`
  * `SubsequenceAutomaton.GetInfo`

Strings are `List Char`; the alphabet (a Python `set`) is a `List Char`
(nodup where it matters).  States are `0..n` for `n` the length of the
reference string.  Python dictionaries keyed by characters are association
lists `List (Char × Nat)`; the distinguished `"def"` key of a transition
dict is kept apart in the `dflt` field (it can never collide with a
one-character key).
-/

set_option maxHeartbeats 1000000

set_option maxRecDepth 65536

/-- A transition-table entry for one state: the optional default transition
(the `"def"` key of the Python transition dict) together with the explicit
character transitions (the remaining keys). -/
structure Entry where
  dflt : Option Nat
  trans : List (Char × Nat)
deriving Repr, DecidableEq

abbrev Alphabet := List Char

/-- The inner `while` loop of `_generateLevels` (both level-based variants):
starting from level `lvl` with `power = k ^ (lvl + 1)`, keep incrementing the
level while `lvl + 1 ≤ Lmax` (encoded as the remaining budget `b = Lmax - lvl`)
and `i % power == 0`. -/
def levelLoop (k i : Nat) : Nat → Nat → Nat → Nat
  | 0, lvl, _ => lvl
  | b + 1, lvl, power => if i % power = 0 then levelLoop k i b (lvl + 1) (power * k) else lvl

/-- `level(i)`: the largest `x ≤ Lmax` with `i % k^x == 0`, and `0` for
`i = 0` (the Python loop starts at index 1, leaving `levels[0] = 0`). -/
def levelOf (k L i : Nat) : Nat :=
  if i = 0 then 0 else levelLoop k i L 0 k

/-- `_generateLevels`: precomputed level for every state index `0..n`.
Both variants run the same loop (`k = 2` for the alphabet-aware one). -/
def genLevels (k L n : Nat) : List Nat :=
  (List.range (n + 1)).map (levelOf k L)

/-- The `next_level_state` scan: minimum of `nearestLevelPos[L]` over
`L ∈ [lvl+1, Lmax]`, starting from the sentinel `n + 1`.  The
`getD _ (n + 1)` default is never read: every scanned index is `≤ Lmax` and
`nlp` has length `Lmax + 1` at every call site. -/
def nextLevel (n : Nat) (nlp : List Nat) (lvl L : Nat) : Nat :=
  (List.range' (lvl + 1) (L - lvl)).foldl
    (fun acc lev => if nlp.getD lev (n + 1) < acc then nlp.getD lev (n + 1) else acc)
    (n + 1)

/-- Python dict assignment `d[c] = v` on an association list: replace the
binding if the key is present (keeping insertion order), else append. -/
def dictSet (l : List (Char × Nat)) (c : Char) (v : Nat) : List (Char × Nat) :=
  if l.any (fun p => p.1 == c) then l.map (fun p => if p.1 == c then (c, v) else p)
  else l ++ [(c, v)]

/-- The transition entry built for one state by `LevelAutomaton.__init__`:
a default to `next_level_state` when that is `≤ n`, and a transition for
`(c, pos)` in `nearestCharPos.items()` exactly when
`pos <= next_level_state and pos < n`. -/
def levelEntry (n nextSt : Nat) (ncp : List (Char × Nat)) : Entry :=
  { dflt := if nextSt ≤ n then some nextSt else none
    trans := ncp.filterMap (fun p => if p.2 ≤ nextSt ∧ p.2 < n then some p else none) }

/-- The dense branch (`span >= σ`) of `AlphabetAwareLevelAutomaton.__init__`:
iterate over the alphabet, record `c ↦ nearestCharPos[c]` when
`1 <= pos <= n and pos <= next_level_state`.  The lookup in Python is the
plain `nearestCharPos[c]`, which is total because the dict is initialised
with every alphabet character; the `getD` sentinel is never read there. -/
def denseTrans (alphabet : Alphabet) (n nextSt : Nat) (ncp : List (Char × Nat)) :
    List (Char × Nat) :=
  alphabet.filterMap (fun c =>
    let pos := (List.lookup c ncp).getD (n + 1)
    if 1 ≤ pos ∧ pos ≤ n ∧ pos ≤ nextSt then some (c, pos) else none)

/-- The sparse branch (`span < σ`): iterate over `nearestCharPos.items()`,
with the same recording condition as the dense branch. -/
def sparseTrans (n nextSt : Nat) (ncp : List (Char × Nat)) : List (Char × Nat) :=
  ncp.filterMap (fun p => if 1 ≤ p.2 ∧ p.2 ≤ n ∧ p.2 ≤ nextSt then some p else none)

/-- The transition entry built for state `s` by
`AlphabetAwareLevelAutomaton.__init__`: default to `next_level_state` when
`≤ n`; explicit transitions by the dense branch when
`span = next_level_state - s ≥ σ`, else by the sparse branch. -/
def awareEntry (alphabet : Alphabet) (n s nextSt : Nat) (ncp : List (Char × Nat)) : Entry :=
  { dflt := if nextSt ≤ n then some nextSt else none
    trans :=
      if alphabet.length ≤ nextSt - s then denseTrans alphabet n nextSt ncp
      else sparseTrans n nextSt ncp }

/-- One iteration body shared by the two backward construction loops: look up
the state's level, scan for `next_level_state`, and build the entry with the
variant's policy `mk`. -/
def sadStep (S : List Char) (k L : Nat) (mk : Nat → Nat → List (Char × Nat) → Entry)
    (s : Nat) (nlp : List Nat) (ncp : List (Char × Nat)) : Entry :=
  mk s (nextLevel S.length nlp ((genLevels k L S.length).getD s 0) L) ncp

/-- The backward pass `for s in range(n, -1, -1)` of the two level-based
constructors, producing the entries in build order `s, s-1, …, 0`.  After
emitting state `s + 1`'s entry it performs the trackers' updates
`nearestLevelPos[level(s+1)] = s+1` and `nearestCharPos[S[s]] = s+1`
(the `i > 0` guard of the Python code is automatic here, and the updates made
after state `0`'s entry are discarded exactly as in the source).  The
`S.getD s 'a'` default is never read: `s < S.length` on every recursive call
reachable from the top-level call. -/
def sadLoop (S : List Char) (k L : Nat) (mk : Nat → Nat → List (Char × Nat) → Entry) :
    Nat → List Nat → List (Char × Nat) → List Entry
  | 0, nlp, ncp => [sadStep S k L mk 0 nlp ncp]
  | s + 1, nlp, ncp =>
    sadStep S k L mk (s + 1) nlp ncp ::
      sadLoop S k L mk s (nlp.set ((genLevels k L S.length).getD (s + 1) 0) (s + 1))
        (dictSet ncp (S.getD s 'a') (s + 1))

/-- `nearestLevelPos` initial value: `[n + 1] * (Lmax + 1)`. -/
def initNlp (n L : Nat) : List Nat := List.replicate (L + 1) (n + 1)

/-- `nearestCharPos` initial value: `{c: n + 1 for c in alphabet}`. -/
def initNcp (alphabet : Alphabet) (n : Nat) : List (Char × Nat) :=
  alphabet.map (fun c => (c, n + 1))

/-- Helper for `lmax`: the least `m ≤ fuel` with `σ ≤ pow * k^m` (with `fuel`
a budget that is always sufficient at the call site for `k ≥ 2`). -/
def lmaxAux (k σ : Nat) : Nat → Nat → Nat
  | 0, _ => 0
  | fuel + 1, pow => if σ ≤ pow then 0 else lmaxAux k σ fuel (pow * k) + 1

/-- The least `m` with `σ ≤ k^m`: the exact integer value of
`ceil(log_k σ)`, the cap the specification's level and delay bounds refer
to.  The source computes its `Lmax` with floating-point `math.log`: for
`k = 2` (the alphabet-aware variant, including its `σ > 1` guard) the float
result coincides with this exact value over the whole realizable range of
`σ`, but for other bases the float quotient can round up — e.g.
`math.log(125, 5)` evaluates just above 3, so `LevelAutomaton` computes
`Lmax = 4` there while the exact ceiling is `lmax 5 125 = 3`.  The Level-k
definitions and theorems therefore take the cap as an explicit parameter
`L`, quantifying over every value the source's float computation may
produce; `lmax` itself is used where it is exact (the aware variant) and as
the specification's mathematical cap. -/
def lmax (k σ : Nat) : Nat := lmaxAux k σ σ 1

/-- The transition table built by `LevelAutomaton.__init__` (build list
reversed so that the index is the state id), with the level cap `L` as an
explicit parameter: the source computes its cap as the floating-point
`ceil(log(len(alphabet), k))`, so results about the Level-k variant are
stated for every possible cap value. -/
def levelTableL (alphabet : Alphabet) (S : List Char) (k L : Nat) : List Entry :=
  (sadLoop S k L
      (fun _ nextSt ncp => levelEntry S.length nextSt ncp)
      S.length (initNlp S.length L)
      (initNcp alphabet S.length)).reverse

/-- The Level-k table at the exact mathematical cap `lmax k σ`; it agrees
with the source's table on every input where the float `ceil(log(σ, k))` is
exact (in particular on all the concrete inputs used below, which have
`k = 2`). -/
def levelTable (alphabet : Alphabet) (S : List Char) (k : Nat) : List Entry :=
  levelTableL alphabet S k (lmax k alphabet.length)

/-- The `LevelAutomaton` constructor including its failure behaviour:
`ceil(log(σ, k))` raises at construction time for `σ = 0` (math domain
error) and for `k ≤ 1` (`ZeroDivisionError` for `k = 1`, domain error for
`k ≤ 0`), before any instance is produced; the raise is modelled by `none`.
No other parameter check exists in the source. -/
def levelInit (alphabet : Alphabet) (S : List Char) (k : Nat) : Option (List Entry) :=
  if k ≤ 1 ∨ alphabet.length = 0 then none else some (levelTable alphabet S k)

/-- The transition table built by `AlphabetAwareLevelAutomaton.__init__`;
this constructor performs no parameter validation and cannot fail. -/
def awareTable (alphabet : Alphabet) (S : List Char) : List Entry :=
  (sadLoop S 2 (lmax 2 alphabet.length)
      (fun s nextSt ncp => awareEntry alphabet S.length s nextSt ncp)
      S.length (initNlp S.length (lmax 2 alphabet.length))
      (initNcp alphabet S.length)).reverse

/-- Python dict assignment for the `Optional`-valued `nearest` dict of
`GeneralAutomaton.__init__`. -/
def dictSetO (l : List (Char × Option Nat)) (c : Char) (v : Nat) : List (Char × Option Nat) :=
  if l.any (fun p => p.1 == c) then l.map (fun p => if p.1 == c then (c, some v) else p)
  else l ++ [(c, some v)]

/-- The backward pass `for i in range(n - 1, -1, -1)` of
`GeneralAutomaton.__init__`: update `nearest[S[i]] = i + 1` first, then
snapshot every non-`None` binding as state `i`'s transitions.  Produces
the entries in build order `n-1, …, 0`; state `n` keeps its initial empty
dict.  The `S.getD i 'a'` default is never read (`i < S.length` at every
reachable call). -/
def generalLoop (S : List Char) : Nat → List (Char × Option Nat) → List (List (Char × Nat))
  | 0, _ => []
  | i + 1, nearest =>
    let nearest' := dictSetO nearest (S.getD i 'a') (i + 1)
    nearest'.filterMap (fun p => p.2.map (fun v => (p.1, v))) :: generalLoop S i nearest'

/-- The transition table of `GeneralAutomaton` (`dflt` is always `none`:
this variant stores no `"def"` key). -/
def generalTable (alphabet : Alphabet) (S : List Char) : List Entry :=
  ((generalLoop S S.length (alphabet.map (fun c => (c, (none : Option Nat))))).reverse
      ++ [[]]).map (fun t => { dflt := none, trans := t })

/-- `GeneralAutomaton.Compute`, one step per query character: reject symbols
outside the alphabet, then follow the unique explicit transition or reject.
The `getD` default entry is never read (states stay `≤ n`). -/
def generalComputeAux (alphabet : Alphabet) (tbl : List Entry) : Nat → List Char → Bool
  | _, [] => true
  | state, c :: rest =>
    if alphabet.contains c then
      match List.lookup c (tbl.getD state (Entry.mk none [])).trans with
      | some t => generalComputeAux alphabet tbl t rest
      | none => false
    else false

def generalCompute (alphabet : Alphabet) (S : List Char) (q : List Char) : Bool :=
  generalComputeAux alphabet (generalTable alphabet S) 0 q

/-- The inner `while True` loop of the two SAD `Compute` methods, with an
explicit iteration budget.  `some (some t)` means an explicit transition to
`t` was taken, `some none` means rejection (neither explicit nor default),
`none` means the budget ran out before a decision — the delay-bound theorem
shows a budget of `Lmax + 1` never runs out, so with that budget this is
exactly the source's unbounded loop. -/
def resolve (tbl : List Entry) : Nat → Nat → Char → Option (Option Nat)
  | 0, _, _ => none
  | fuel + 1, state, c =>
    match List.lookup c (tbl.getD state (Entry.mk none [])).trans with
    | some t => some (some t)
    | none =>
      match (tbl.getD state (Entry.mk none [])).dflt with
      | some d => resolve tbl fuel d c
      | none => some none

/-- The outer loop of `LevelAutomaton.Compute` and
`AlphabetAwareLevelAutomaton.Compute`: reject out-of-alphabet symbols,
otherwise resolve each symbol through explicit/default transitions. -/
def sadComputeAux (alphabet : Alphabet) (tbl : List Entry) (fuel : Nat) :
    Nat → List Char → Bool
  | _, [] => true
  | state, c :: rest =>
    if alphabet.contains c then
      match resolve tbl fuel state c with
      | some (some t) => sadComputeAux alphabet tbl fuel t rest
      | _ => false
    else false

/-- `LevelAutomaton.Compute` on the table with cap `L`; the iteration budget
`L + 1` is justified by the resolution lemma for that same cap, so for every
cap this equals the source's unbounded inner loop. -/
def levelComputeL (alphabet : Alphabet) (S : List Char) (k L : Nat) (q : List Char) : Bool :=
  sadComputeAux alphabet (levelTableL alphabet S k L) (L + 1) 0 q

/-- `LevelAutomaton.Compute` at the exact cap (used at float-exact inputs). -/
def levelCompute (alphabet : Alphabet) (S : List Char) (k : Nat) (q : List Char) : Bool :=
  levelComputeL alphabet S k (lmax k alphabet.length) q

def awareCompute (alphabet : Alphabet) (S : List Char) (q : List Char) : Bool :=
  sadComputeAux alphabet (awareTable alphabet S) (lmax 2 alphabet.length + 1) 0 q

/-- The accumulator of the `GetInfo` counting loop. -/
structure Counts where
  vertices : Nat
  edges : Nat
  defaults : Nat
  explicits : Nat
deriving Repr, DecidableEq

/-- `len(vertex.keys())` for a state's transition dict (explicit keys plus
the `"def"` key when present). -/
def entrySize (e : Entry) : Nat := e.trans.length + (if e.dflt.isSome then 1 else 0)

/-- The counting loop of `SubsequenceAutomaton.GetInfo`. -/
def infoCounts (tbl : List Entry) : Counts :=
  tbl.foldl
    (fun acc e =>
      { vertices := acc.vertices + 1
        edges := acc.edges + entrySize e
        defaults := acc.defaults + (if e.dflt.isSome then 1 else 0)
        explicits := acc.explicits + (if e.dflt.isSome then entrySize e - 1 else entrySize e) })
    ⟨0, 0, 0, 0⟩

/-- The statistics record (field names as in the source, including the
`defaultTranstions` spelling kept there for backwards compatibility). -/
structure AutomatonData where
  vertexCount : Nat
  edgeCount : Nat
  defaultTranstions : Nat
  explicitTransitions : Nat
  defaultRatio : ℚ
  explicitRatio : ℚ
  savedAgainstFull : ℚ
deriving Repr, DecidableEq

/-- `SubsequenceAutomaton.GetInfo`.  The source divides by `edgeCount` and by
`(vertexCount + 1) * len(alphabet)` with, as its own comment states, "no
protection against division by zero"; the uncaught `ZeroDivisionError`
(raised when the edge count is `0`, or when `σ = 0`) is modelled by `none`. -/
def GetInfo (alphabet : Alphabet) (tbl : List Entry) : Option AutomatonData :=
  let c := infoCounts tbl
  if c.edges = 0 ∨ alphabet.length = 0 then none
  else some
    { vertexCount := c.vertices
      edgeCount := c.edges
      defaultTranstions := c.defaults
      explicitTransitions := c.explicits
      defaultRatio := (c.defaults : ℚ) / (c.edges : ℚ)
      explicitRatio := (c.explicits : ℚ) / (c.edges : ℚ)
      savedAgainstFull := 1 - (c.edges : ℚ) / (((c.vertices : ℚ) + 1) * (alphabet.length : ℚ)) }

/-- Modelled from the spec: the ground-truth oracle, "a trivial two-pointer
reference check independent of any automaton" — scan the reference string
once, advancing in the query on every match. -/
def isSubsequence : List Char → List Char → Bool
  | [], _ => true
  | _ :: _, [] => false
  | c :: q, x :: rest => if c == x then isSubsequence q rest else isSubsequence (c :: q) rest

/-- Index (as a `0`-based offset) of the first occurrence of `c` in a list. -/
def nextOccAux (c : Char) : List Char → Option Nat
  | [] => none
  | x :: xs => if x == c then some 0 else (nextOccAux c xs).map (fun m => m + 1)

/-- Closed form of the `nearestCharPos` tracker when processing state `i`:
the smallest state index `j ∈ (i, n]` with `S[j-1] = c`, else the sentinel
`n + 1`. -/
def nextOcc (S : List Char) (i : Nat) (c : Char) : Nat :=
  match nextOccAux c (S.drop i) with
  | some m => i + m + 1
  | none => S.length + 1

/-- The least `m ∈ (j, n]` satisfying `p`, else the sentinel `n + 1`. -/
def findAbove (n j : Nat) (p : Nat → Bool) : Nat :=
  match (List.range' (j + 1) (n - j)).find? p with
  | some m => m
  | none => n + 1

/-- Closed form of `next_level_state` at state `j`: the least state `> j`
(up to `n`) of strictly higher level, else `n + 1`. -/
def nextHigher (k L n j : Nat) : Nat :=
  findAbove n j (fun m => decide (levelOf k L j < levelOf k L m))

/-- Closed form of the `nearestLevelPos[lev]` tracker when processing state
`j`: the least state `> j` (up to `n`) of level exactly `lev`, else `n+1`. -/
def minLevelPos (k L n j lev : Nat) : Nat :=
  findAbove n j (fun m => levelOf k L m == lev)

/-- Closed form of the whole `nearestCharPos` dict at state `j`. -/
def ncpClosed (alphabet : Alphabet) (S : List Char) (j : Nat) : List (Char × Nat) :=
  alphabet.map (fun c => (c, nextOcc S j c))

/-- Closed form of the whole `nearestLevelPos` list at state `j`. -/
def nlpClosed (k L : Nat) (S : List Char) (j : Nat) : List Nat :=
  (List.range (L + 1)).map (fun lev => minLevelPos k L S.length j lev)

/-- Closed form of the `nearest` dict of `GeneralAutomaton.__init__` when
state `j`'s snapshot is taken. -/
def nearestOClosed (alphabet : Alphabet) (S : List Char) (j : Nat) : List (Char × Option Nat) :=
  alphabet.map (fun c =>
    (c, if nextOcc S j c ≤ S.length then some (nextOcc S j c) else none))

/-- Closed form of state `j`'s transitions in the general automaton. -/
def generalEntryTrans (alphabet : Alphabet) (S : List Char) (j : Nat) : List (Char × Nat) :=
  alphabet.filterMap (fun c =>
    if nextOcc S j c ≤ S.length then some (c, nextOcc S j c) else none)

/-- The alphabet-aware entry builder with the span test removed (always the
sparse branch); used to state that the built table does not depend on the
span test. -/
def awareEntrySparse (n nextSt : Nat) (ncp : List (Char × Nat)) : Entry :=
  { dflt := if nextSt ≤ n then some nextSt else none
    trans := sparseTrans n nextSt ncp }

/-- The alphabet-aware table built with the span test removed. -/
def awareTableSparse (alphabet : Alphabet) (S : List Char) : List Entry :=
  (sadLoop S 2 (lmax 2 alphabet.length)
      (fun _ nextSt ncp => awareEntrySparse S.length nextSt ncp)
      S.length (initNlp S.length (lmax 2 alphabet.length))
      (initNcp alphabet S.length)).reverse

/-- Failing input for the floating-point Lmax divergence of the Level-k
variant: an alphabet of the 125 distinct characters with codes 33..157.
At σ = 125, k = 5 the source's `ceil(log(125, 5))` evaluates to 4 (the float
quotient lands just above 3) while the exact ceiling `lmax 5 125` is 3. -/
def c5A : Alphabet := (List.range 125).map (fun i => Char.ofNat (33 + i))

/-- Failing input, reference string: 624 characters cycling through the 124
codes 33..156, followed by the code-157 character whose only occurrence is
position 625 = 5^4 — the state that receives level 4 under the source's
float cap. -/
def c5S : List Char :=
  (List.range 624).map (fun i => Char.ofNat (33 + i % 124)) ++ [Char.ofNat 157]

example : generalCompute ['a', 'b'] ['a', 'b', 'a'] ['a', 'b'] = true := by decide
example : generalCompute ['a', 'b'] ['a', 'b', 'a'] ['b', 'b'] = false := by decide
example : generalCompute ['a', 'b'] ['a', 'b', 'a'] ['b', 'a'] = true := by decide
example : generalCompute ['a', 'b'] ['a', 'b', 'a'] ['a', 'a'] = true := by decide
example : levelCompute ['a', 'b'] ['a', 'b'] 2 ['b'] = false := by decide
example : levelCompute ['a', 'b'] ['a', 'b'] 2 ['a'] = true := by decide
example : awareCompute ['a', 'b'] ['a', 'b'] ['b'] = true := by decide
example : awareCompute ['a', 'b'] ['a', 'b', 'a'] ['b', 'a'] = true := by decide
example : levelCompute ['a', 'b'] ['a', 'b', 'a'] 2 ['a', 'b'] = true := by decide
example : levelCompute ['a', 'b'] ['a', 'b', 'a'] 2 ['a', 'b', 'a'] = false := by decide
example : isSubsequence ['b', 'a'] ['a', 'b', 'a'] = true := by decide
example : isSubsequence ['b', 'b'] ['a', 'b', 'a'] = false := by decide

/-! ### Association-list lookup helpers -/

theorem lookup_map_fun (alphabet : Alphabet) (f : Char → Nat) (c : Char) :
    List.lookup c (alphabet.map (fun a => (a, f a))) =
      if c ∈ alphabet then some (f c) else none := by
  induction alphabet with
  | nil => simp
  | cons a l ih =>
    by_cases h : c = a
    · subst h
      simp [List.lookup_cons]
    · simp [List.lookup_cons, beq_false_of_ne h, ih, h]

theorem lookup_filterMap_fun (alphabet : Alphabet) (f : Char → Nat) (p : Char → Prop)
    [DecidablePred p] (c : Char) :
    List.lookup c (alphabet.filterMap (fun a => if p a then some (a, f a) else none)) =
      if c ∈ alphabet ∧ p c then some (f c) else none := by
  induction alphabet with
  | nil => simp
  | cons a l ih =>
    by_cases hp : p a
    · by_cases h : c = a
      · subst h
        simp [hp, List.lookup_cons]
      · simp [hp, List.lookup_cons, beq_false_of_ne h, ih, h]
    · by_cases h : c = a
      · subst h
        simp [hp, ih]
      · simp only [List.filterMap_cons, if_neg hp, ih]
        simp [h]

/-! ### Minimum-scan (`next_level_state`) helpers -/

theorem foldMin_le_init (l : List Nat) (g : Nat → Nat) (a : Nat) :
    l.foldl (fun acc x => if g x < acc then g x else acc) a ≤ a := by
  induction l generalizing a with
  | nil => simp
  | cons x l ih =>
    simp only [List.foldl_cons]
    by_cases h : g x < a
    · simpa [h] using le_trans (ih (g x)) (le_of_lt h)
    · simpa [h] using ih a

theorem foldMin_le_mem (l : List Nat) (g : Nat → Nat) (a : Nat) (x : Nat) (hx : x ∈ l) :
    l.foldl (fun acc y => if g y < acc then g y else acc) a ≤ g x := by
  induction l generalizing a with
  | nil => simp at hx
  | cons y l ih =>
    simp only [List.foldl_cons]
    rcases List.mem_cons.mp hx with h | h
    · subst h
      refine le_trans (foldMin_le_init _ _ _) ?_
      by_cases hy : g x < a
      · simp [hy]
      · simp [hy]; omega
    · exact ih (if g y < a then g y else a) h

theorem foldMin_cases (l : List Nat) (g : Nat → Nat) (a : Nat) :
    l.foldl (fun acc y => if g y < acc then g y else acc) a = a ∨
      ∃ x ∈ l, l.foldl (fun acc y => if g y < acc then g y else acc) a = g x := by
  induction l generalizing a with
  | nil => simp
  | cons y l ih =>
    simp only [List.foldl_cons]
    by_cases hy : g y < a
    · rcases ih (g y) with h | ⟨x, hx, h⟩
      · right; exact ⟨y, List.mem_cons_self _ _, by simpa [hy] using h⟩
      · right; exact ⟨x, List.mem_cons_of_mem _ hx, by simpa [hy] using h⟩
    · rcases ih a with h | ⟨x, hx, h⟩
      · left; simpa [hy] using h
      · right; exact ⟨x, List.mem_cons_of_mem _ hx, by simpa [hy] using h⟩

/-! ### `findAbove` (first state above an index satisfying a predicate) -/

theorem find?_range'_first :
    ∀ (len s : Nat) (p : Nat → Bool) (m : Nat),
      (List.range' s len).find? p = some m → ∀ x, s ≤ x → x < m → p x = false := by
  intro len
  induction len with
  | zero => intro s p m h; simp [List.range'] at h
  | succ len ih =>
    intro s p m h x hsx hxm
    rw [List.range'_succ, List.find?_cons] at h
    rcases hp : p s with _ | _
    · rw [hp] at h
      simp only at h
      rcases Nat.eq_or_lt_of_le hsx with he | hl
      · subst he; exact hp
      · exact ih (s + 1) p m h x hl hxm
    ·
      rw [hp] at h
      simp only [Option.some.injEq] at h
      omega

theorem findAbove_cases (n j : Nat) (p : Nat → Bool) :
    findAbove n j p = n + 1 ∨
      (j < findAbove n j p ∧ findAbove n j p ≤ n ∧ p (findAbove n j p) = true) := by
  rcases h : (List.range' (j + 1) (n - j)).find? p with _ | m
  · left
    unfold findAbove
    rw [h]
  · right
    have hmem := List.mem_of_find?_eq_some h
    have hsat := List.find?_some h
    rw [List.mem_range'_1] at hmem
    have hf : findAbove n j p = m := by
      unfold findAbove
      rw [h]
    rw [hf]
    exact ⟨by omega, by omega, hsat⟩

theorem findAbove_le_succ (n j : Nat) (p : Nat → Bool) (hj : j ≤ n) :
    findAbove n j p ≤ n + 1 := by
  rcases findAbove_cases n j p with h | ⟨_, h, _⟩ <;> omega

theorem findAbove_gt (n j : Nat) (p : Nat → Bool) (hj : j ≤ n) : j < findAbove n j p := by
  rcases findAbove_cases n j p with h | ⟨h, _, _⟩ <;> omega

theorem findAbove_min (n j : Nat) (p : Nat → Bool) (m : Nat) (h1 : j < m)
    (h2 : m < findAbove n j p) (h3 : m ≤ n) : p m = false := by
  unfold findAbove at h2
  rcases h : (List.range' (j + 1) (n - j)).find? p with _ | v
  · have := List.find?_eq_none.mp h m (by rw [List.mem_range'_1]; omega)
    simpa using this
  · rw [h] at h2
    exact find?_range'_first (n - j) (j + 1) p v h m (by omega) h2

theorem findAbove_le_of_sat (n j : Nat) (p : Nat → Bool) (m : Nat) (h1 : j < m) (h2 : m ≤ n)
    (h3 : p m = true) : findAbove n j p ≤ m := by
  by_contra hlt
  have := findAbove_min n j p m h1 (by omega) h2
  rw [h3] at this
  exact Bool.true_eq_false.mp this

theorem findAbove_step (n j : Nat) (p : Nat → Bool) (h : j < n) :
    findAbove n j p = if p (j + 1) then j + 1 else findAbove n (j + 1) p := by
  unfold findAbove
  have hn : n - j = (n - (j + 1)) + 1 := by omega
  rw [hn, List.range'_succ, List.find?_cons]
  rcases hp : p (j + 1) with _ | _ <;> simp [hp]

theorem findAbove_stop (n j : Nat) (p : Nat → Bool) (h : n ≤ j) : findAbove n j p = n + 1 := by
  unfold findAbove
  have : n - j = 0 := by omega
  rw [this]
  rfl

/-! ### Level-function lemmas -/

theorem levelLoop_le (k i : Nat) : ∀ b lvl power, levelLoop k i b lvl power ≤ lvl + b := by
  intro b
  induction b with
  | zero => intro lvl power; simp [levelLoop]
  | succ b ih =>
    intro lvl power
    simp only [levelLoop]
    by_cases h : i % power = 0
    · simp only [if_pos h]
      have := ih (lvl + 1) (power * k)
      omega
    · simp only [if_neg h]
      omega

theorem levelLoop_ge (k i : Nat) : ∀ b lvl power, lvl ≤ levelLoop k i b lvl power := by
  intro b
  induction b with
  | zero => intro lvl power; simp [levelLoop]
  | succ b ih =>
    intro lvl power
    simp only [levelLoop]
    by_cases h : i % power = 0
    · simp only [if_pos h]
      have := ih (lvl + 1) (power * k)
      omega
    · simp only [if_neg h]
      omega

theorem levelLoop_spec (k i : Nat) :
    ∀ b lvl, i % k ^ lvl = 0 →
      i % k ^ levelLoop k i b lvl (k ^ (lvl + 1)) = 0 ∧
        (levelLoop k i b lvl (k ^ (lvl + 1)) < lvl + b →
          i % k ^ (levelLoop k i b lvl (k ^ (lvl + 1)) + 1) ≠ 0) := by
  intro b
  induction b with
  | zero =>
    intro lvl h
    refine ⟨h, ?_⟩
    intro hlt
    simp [levelLoop] at hlt
  | succ b ih =>
    intro lvl h
    simp only [levelLoop]
    by_cases hp : i % k ^ (lvl + 1) = 0
    · simp only [if_pos hp]
      have hpow : k ^ (lvl + 1) * k = k ^ (lvl + 1 + 1) := (pow_succ k (lvl + 1)).symm
      rw [hpow]
      obtain ⟨a1, a2⟩ := ih (lvl + 1) hp
      exact ⟨a1, fun hlt => a2 (by omega)⟩
    · simp only [if_neg hp]
      exact ⟨h, fun _ => hp⟩

theorem levelOf_zero (k L : Nat) : levelOf k L 0 = 0 := by simp [levelOf]

theorem levelOf_le (k L i : Nat) : levelOf k L i ≤ L := by
  unfold levelOf
  by_cases h : i = 0
  · simp [h]
  · simp only [if_neg h]
    have := levelLoop_le k i L 0 k
    omega

theorem levelOf_spec (k L i : Nat) (hi : i ≠ 0) :
    i % k ^ levelOf k L i = 0 ∧ (levelOf k L i < L → i % k ^ (levelOf k L i + 1) ≠ 0) := by
  unfold levelOf
  simp only [if_neg hi]
  have h0 : i % k ^ 0 = 0 := by simp [Nat.mod_one]
  have := levelLoop_spec k i L 0 h0
  rw [pow_one] at this
  simpa using this

/-! ### `lmax` is the ceiling of `log_k σ` -/

theorem lmaxAux_spec (k σ : Nat) (hk : 1 ≤ k) :
    ∀ fuel pow, 1 ≤ pow → σ ≤ pow * k ^ fuel →
      σ ≤ pow * k ^ lmaxAux k σ fuel pow ∧
        ∀ m, m < lmaxAux k σ fuel pow → ¬ σ ≤ pow * k ^ m := by
  intro fuel
  induction fuel with
  | zero =>
    intro pow hpow h
    simp only [lmaxAux]
    exact ⟨by simpa using h, by omega⟩
  | succ fuel ih =>
    intro pow hpow h
    simp only [lmaxAux]
    by_cases hs : σ ≤ pow
    · simp only [if_pos hs]
      exact ⟨by simpa using hs, by omega⟩
    · simp only [if_neg hs]
      have h' : σ ≤ pow * k * k ^ fuel := by
        have : k ^ (fuel + 1) = k ^ fuel * k := pow_succ k fuel
        rw [this] at h
        calc σ ≤ pow * (k ^ fuel * k) := h
          _ = pow * k * k ^ fuel := by ring
      have hpk : 1 ≤ pow * k := Nat.one_le_iff_ne_zero.mpr (by positivity)
      obtain ⟨h1, h2⟩ := ih (pow * k) hpk h'
      constructor
      · calc σ ≤ pow * k * k ^ lmaxAux k σ fuel (pow * k) := h1
          _ = pow * k ^ (lmaxAux k σ fuel (pow * k) + 1) := by
            rw [pow_succ]; ring
      · intro m hm
        match m with
        | 0 => simpa using hs
        | m' + 1 =>
          have := h2 m' (by omega)
          intro hc
          apply this
          calc σ ≤ pow * k ^ (m' + 1) := hc
            _ = pow * k * k ^ m' := by rw [pow_succ]; ring

theorem lmax_spec (k σ : Nat) (hk : 2 ≤ k) :
    σ ≤ k ^ lmax k σ ∧ ∀ m, m < lmax k σ → k ^ m < σ := by
  have hfuel : σ ≤ 1 * k ^ σ := by
    have h1 : σ < 2 ^ σ := Nat.lt_two_pow σ
    have h2 : 2 ^ σ ≤ k ^ σ := Nat.pow_le_pow_left hk σ
    omega
  obtain ⟨h1, h2⟩ := lmaxAux_spec k σ (by omega) σ 1 le_rfl hfuel
  unfold lmax
  constructor
  · simpa using h1
  · intro m hm
    have := h2 m hm
    simp at this
    omega

theorem lmax_of_le_one (k σ : Nat) (h : σ ≤ 1) : lmax k σ = 0 := by
  interval_cases σ
  · rfl
  · rfl

/-! ### `nextOcc` (closed form of the nearest-occurrence tracker) -/

theorem nextOccAux_lt_length (c : Char) :
    ∀ (l : List Char) (m : Nat), nextOccAux c l = some m → m < l.length := by
  intro l
  induction l with
  | nil => intro m h; simp [nextOccAux] at h
  | cons x xs ih =>
    intro m h
    simp only [nextOccAux] at h
    by_cases hx : (x == c) = true
    · rw [if_pos hx] at h
      simp only [Option.some.injEq] at h
      simp [← h]
    · rw [if_neg hx] at h
      rcases h2 : nextOccAux c xs with _ | v
      · rw [h2] at h; simp at h
      · rw [h2] at h
        simp only [Option.map_some'] at h
        have := ih v h2
        simp only [Option.some.injEq] at h
        simp [← h, List.length_cons]
        omega

theorem nextOccAux_none (c : Char) :
    ∀ (l : List Char), c ∉ l → nextOccAux c l = none := by
  intro l
  induction l with
  | nil => intro _; rfl
  | cons x xs ih =>
    intro h
    simp only [nextOccAux]
    have hx : (x == c) = false := by
      refine beq_false_of_ne ?_
      intro he
      exact h (by simp [he])
    rw [if_neg (by simp [hx])]
    rw [ih (fun hc => h (List.mem_cons_of_mem _ hc))]
    rfl

theorem nextOcc_le (S : List Char) (i : Nat) (c : Char) : nextOcc S i c ≤ S.length + 1 := by
  unfold nextOcc
  rcases h : nextOccAux c (S.drop i) with _ | m
  · simp only [h]
    omega
  · have := nextOccAux_lt_length c (S.drop i) m h
    rw [List.length_drop] at this
    simp only [h]
    omega

theorem nextOcc_gt (S : List Char) (i : Nat) (c : Char) (hi : i ≤ S.length) :
    i < nextOcc S i c := by
  unfold nextOcc
  rcases h : nextOccAux c (S.drop i) with _ | m
  · simp only [h]
    omega
  · simp only [h]
    omega

theorem nextOcc_big (S : List Char) (i : Nat) (c : Char) (h : S.length ≤ i) :
    nextOcc S i c = S.length + 1 := by
  unfold nextOcc
  rw [List.drop_eq_nil_of_le h]
  rfl

theorem nextOcc_step (S : List Char) (i : Nat) (c : Char) (h : i < S.length) :
    nextOcc S i c = if S.getD i 'a' == c then i + 1 else nextOcc S (i + 1) c := by
  by_cases hc : (S.getD i 'a' == c) = true
  · rw [if_pos hc]
    unfold nextOcc
    rw [List.drop_eq_getElem_cons h]
    simp only [nextOccAux]
    rw [List.getD_eq_getElem S 'a' h] at hc
    rw [if_pos hc]
  · rw [if_neg hc]
    unfold nextOcc
    rw [List.drop_eq_getElem_cons h]
    simp only [nextOccAux]
    rw [List.getD_eq_getElem S 'a' h] at hc
    rw [if_neg hc]
    rcases h2 : nextOccAux c (S.drop (i + 1)) with _ | m
    · simp only [h2, Option.map_none']
    · simp only [h2, Option.map_some']
      omega

theorem nextOcc_not_mem (S : List Char) (i : Nat) (c : Char) (h : c ∉ S) :
    nextOcc S i c = S.length + 1 := by
  unfold nextOcc
  rw [nextOccAux_none c _ (fun hc => h (List.mem_of_mem_drop hc))]

theorem nextOcc_stable (S : List Char) (c : Char) :
    ∀ m j d, d - j = m → j ≤ d → d < nextOcc S j c → nextOcc S d c = nextOcc S j c := by
  intro m
  induction m with
  | zero =>
    intro j d hm hjd _
    have : j = d := by omega
    rw [this]
  | succ m ih =>
    intro j d hm hjd hlt
    by_cases hj : j < S.length
    · rw [nextOcc_step S j c hj] at hlt ⊢
      by_cases hc : (S.getD j 'a' == c) = true
      · rw [if_pos hc] at hlt ⊢
        omega
      · rw [if_neg hc] at hlt ⊢
        exact ih (j + 1) d (by omega) (by omega) hlt
    · have h1 : nextOcc S j c = S.length + 1 := nextOcc_big S j c (by omega)
      rw [h1] at hlt
      have h2 : nextOcc S d c = S.length + 1 := nextOcc_big S d c (by omega)
      rw [h1, h2]

theorem nextOcc_mono (S : List Char) (c : Char) (j d : Nat) (h : j ≤ d) :
    nextOcc S j c ≤ nextOcc S d c := by
  rcases le_or_lt (nextOcc S j c) d with hle | hlt
  · rcases le_or_lt d S.length with hd | hd
    · have := nextOcc_gt S d c hd
      omega
    · have := nextOcc_big S d c (by omega)
      have := nextOcc_le S j c
      omega
  · rw [nextOcc_stable S c (d - j) j d rfl h hlt]

/-! ### The two-pointer oracle: greedy step and equivalence with `Sublist` -/

theorem isSubsequence_nil (l : List Char) : isSubsequence [] l = true := by
  cases l <;> rfl

theorem greedy_step (S : List Char) (B : Nat) (hB : B ≤ S.length) (c : Char) (q : List Char) :
    ∀ m j, B - j = m →
      isSubsequence (c :: q) ((S.take B).drop j) =
        if nextOcc S j c ≤ B then isSubsequence q ((S.take B).drop (nextOcc S j c))
        else false := by
  have hlen : (S.take B).length = B := by
    rw [List.length_take]
    omega
  intro m
  induction m with
  | zero =>
    intro j hm
    have hjB : B ≤ j := by omega
    have hnil : (S.take B).drop j = [] := by
      apply List.drop_eq_nil_of_le
      omega
    rw [hnil]
    have hgt : ¬ nextOcc S j c ≤ B := by
      rcases le_or_lt j S.length with hj | hj
      · have := nextOcc_gt S j c hj
        omega
      · have := nextOcc_big S j c (by omega)
        omega
    rw [if_neg hgt]
    rfl
  | succ m ih =>
    intro j hm
    have hjB : j < B := by omega
    have hjS : j < S.length := by omega
    have hdrop : (S.take B).drop j = S[j] :: (S.take B).drop (j + 1) := by
      have hj' : j < (S.take B).length := by omega
      rw [List.drop_eq_getElem_cons hj']
      congr 1
      exact List.getElem_take S
    rw [hdrop]
    rw [nextOcc_step S j c hjS]
    by_cases hc : c = S[j]
    · have hbeq : (S.getD j 'a' == c) = true := by
        rw [List.getD_eq_getElem S 'a' hjS]
        exact beq_iff_eq.mpr hc.symm
      rw [if_pos hbeq]
      simp only [isSubsequence, beq_iff_eq, if_pos hc]
      rw [if_pos (by omega)]
    · have hbeq : (S.getD j 'a' == c) = false := by
        rw [List.getD_eq_getElem S 'a' hjS]
        exact beq_false_of_ne (fun he => hc he.symm)
      have hcond : ¬ (S.getD j 'a' == c) = true := by
        simp only [hbeq]
        simp
      have hinner : (if (S.getD j 'a' == c) = true then j + 1 else nextOcc S (j + 1) c) =
          nextOcc S (j + 1) c := if_neg hcond
      rw [hinner]
      have hlhs : isSubsequence (c :: q) (S[j] :: (S.take B).drop (j + 1)) =
          isSubsequence (c :: q) ((S.take B).drop (j + 1)) := by
        simp only [isSubsequence, beq_iff_eq, if_neg hc]
      rw [hlhs]
      exact ih (j + 1) (by omega)

theorem genLevels_getD (k L n s : Nat) (h : s ≤ n) :
    (genLevels k L n).getD s 0 = levelOf k L s := by
  unfold genLevels
  rw [List.getD_eq_getElem _ _ (by simp; omega)]
  rw [List.getElem_map, List.getElem_range]

theorem initNcp_closed (alphabet : Alphabet) (S : List Char) :
    initNcp alphabet S.length = ncpClosed alphabet S S.length := by
  unfold initNcp ncpClosed
  apply List.map_congr_left
  intro a _
  rw [nextOcc_big S S.length a le_rfl]

theorem dictSet_closed (alphabet : Alphabet) (S : List Char) (s : Nat) (hs : s < S.length)
    (hmem : S.getD s 'a' ∈ alphabet) :
    dictSet (ncpClosed alphabet S (s + 1)) (S.getD s 'a') (s + 1) = ncpClosed alphabet S s := by
  unfold dictSet ncpClosed
  have hany : (List.map (fun c => (c, nextOcc S (s + 1) c)) alphabet).any
      (fun p => p.1 == S.getD s 'a') = true := by
    rw [List.any_eq_true]
    exact ⟨(S.getD s 'a', nextOcc S (s + 1) (S.getD s 'a')),
      List.mem_map_of_mem _ hmem, by simp⟩
  rw [if_pos hany, List.map_map]
  apply List.map_congr_left
  intro a _
  simp only [Function.comp_apply]
  by_cases h : a = S.getD s 'a'
  · have hb1 : (a == S.getD s 'a') = true := by rw [h]; simp
    have hb2 : (S.getD s 'a' == a) = true := by rw [h]; simp
    rw [if_pos hb1, nextOcc_step S s a hs, if_pos hb2, h]
  · have hb1 : (a == S.getD s 'a') = false := beq_false_of_ne h
    have hb2 : (S.getD s 'a' == a) = false := beq_false_of_ne (fun he => h he.symm)
    rw [if_neg (by rw [hb1]; simp), nextOcc_step S s a hs, if_neg (by rw [hb2]; simp)]

theorem initNlp_closed (k L : Nat) (S : List Char) :
    initNlp S.length L = nlpClosed k L S S.length := by
  unfold initNlp nlpClosed
  apply List.ext_getElem
  · simp
  · intro lev h1 h2
    rw [List.getElem_replicate]
    simp only [List.getElem_map, List.getElem_range]
    unfold minLevelPos
    rw [findAbove_stop _ _ _ le_rfl]

theorem nlp_step (k L : Nat) (S : List Char) (s : Nat) (hs : s < S.length) :
    (nlpClosed k L S (s + 1)).set (levelOf k L (s + 1)) (s + 1) = nlpClosed k L S s := by
  unfold nlpClosed
  apply List.ext_getElem
  · simp [List.length_set]
  · intro lev h1 h2
    rw [List.getElem_set]
    simp only [List.getElem_map, List.getElem_range]
    unfold minLevelPos
    rw [findAbove_step _ _ _ hs]
    by_cases he : levelOf k L (s + 1) = lev
    · rw [if_pos he, if_pos (by simp [he])]
    · rw [if_neg he, if_neg (by simp [he])]

theorem nlpClosed_getD (k L : Nat) (S : List Char) (j lev : Nat) (hlev : lev ≤ L) :
    (nlpClosed k L S j).getD lev (S.length + 1) = minLevelPos k L S.length j lev := by
  unfold nlpClosed
  rw [List.getD_eq_getElem _ _ (by simp; omega)]
  rw [List.getElem_map, List.getElem_range]

theorem nextLevel_closed (k L : Nat) (S : List Char) (j : Nat) (hj : j ≤ S.length) :
    nextLevel S.length (nlpClosed k L S j) (levelOf k L j) L =
      nextHigher k L S.length j := by
  unfold nextLevel nextHigher
  rcases findAbove_cases S.length j (fun m => decide (levelOf k L j < levelOf k L m)) with
    hA | ⟨hA1, hA2, hA3⟩
  · -- no strictly-higher-level state: every tracked position is the sentinel
    rw [hA]
    rcases foldMin_cases (List.range' (levelOf k L j + 1) (L - levelOf k L j))
        (fun lev => (nlpClosed k L S j).getD lev (S.length + 1)) (S.length + 1) with
      hc | ⟨lev, hlev, hc⟩
    · rw [hc]
    · rw [hc]
      rw [List.mem_range'_1] at hlev
      rw [nlpClosed_getD k L S j lev (by omega)]
      rcases findAbove_cases S.length j (fun m => levelOf k L m == lev) with hm | ⟨hm1, hm2, hm3⟩
      · unfold minLevelPos
        rw [hm]
      · exfalso
        have hlv : levelOf k L (findAbove S.length j (fun m => levelOf k L m == lev)) = lev :=
          beq_iff_eq.mp hm3
        have hsat : (fun m => decide (levelOf k L j < levelOf k L m))
            (findAbove S.length j (fun m => levelOf k L m == lev)) = true := by
          simp only [decide_eq_true_eq]
          omega
        have := findAbove_le_of_sat S.length j
          (fun m => decide (levelOf k L j < levelOf k L m)) _ hm1 hm2 hsat
        omega
  · -- A is the least state of strictly higher level
    have hAlvl : levelOf k L j < levelOf k L
        (findAbove S.length j (fun m => decide (levelOf k L j < levelOf k L m))) :=
      of_decide_eq_true hA3
    have hALle : levelOf k L
        (findAbove S.length j (fun m => decide (levelOf k L j < levelOf k L m))) ≤ L :=
      levelOf_le k L _
    have hmem : levelOf k L
        (findAbove S.length j (fun m => decide (levelOf k L j < levelOf k L m))) ∈
        List.range' (levelOf k L j + 1) (L - levelOf k L j) := by
      rw [List.mem_range'_1]
      omega
    have h5 := foldMin_le_mem (List.range' (levelOf k L j + 1) (L - levelOf k L j))
      (fun lev => (nlpClosed k L S j).getD lev (S.length + 1)) (S.length + 1) _ hmem
    have h6 : (nlpClosed k L S j).getD
        (levelOf k L (findAbove S.length j (fun m => decide (levelOf k L j < levelOf k L m))))
        (S.length + 1) ≤
        findAbove S.length j (fun m => decide (levelOf k L j < levelOf k L m)) := by
      rw [nlpClosed_getD k L S j _ hALle]
      unfold minLevelPos
      exact findAbove_le_of_sat S.length j
        (fun m => levelOf k L m == levelOf k L (findAbove S.length j
          (fun m => decide (levelOf k L j < levelOf k L m)))) _ hA1 hA2 (by simp)
    have h7 : findAbove S.length j (fun m => decide (levelOf k L j < levelOf k L m)) ≤
        (List.range' (levelOf k L j + 1) (L - levelOf k L j)).foldl
          (fun acc lev => if (nlpClosed k L S j).getD lev (S.length + 1) < acc
            then (nlpClosed k L S j).getD lev (S.length + 1) else acc) (S.length + 1) := by
      rcases foldMin_cases (List.range' (levelOf k L j + 1) (L - levelOf k L j))
          (fun lev => (nlpClosed k L S j).getD lev (S.length + 1)) (S.length + 1) with
        hc | ⟨lev, hlev, hc⟩
      · rw [hc]; omega
      · rw [hc]
        rw [List.mem_range'_1] at hlev
        rw [nlpClosed_getD k L S j lev (by omega)]
        rcases findAbove_cases S.length j (fun m => levelOf k L m == lev) with
          hm | ⟨hm1, hm2, hm3⟩
        · unfold minLevelPos
          rw [hm]
          omega
        · have hlv : levelOf k L (findAbove S.length j (fun m => levelOf k L m == lev)) = lev :=
            beq_iff_eq.mp hm3
          have hsat : (fun m => decide (levelOf k L j < levelOf k L m))
              (findAbove S.length j (fun m => levelOf k L m == lev)) = true := by
            simp only [decide_eq_true_eq]
            omega
          exact findAbove_le_of_sat S.length j
            (fun m => decide (levelOf k L j < levelOf k L m)) _ hm1 hm2 hsat
    exact le_antisymm (le_trans h5 h6) h7

/-! ### Closed forms of the built tables -/

theorem sadStep_closed (alphabet : Alphabet) (S : List Char) (k L : Nat)
    (mk : Nat → Nat → List (Char × Nat) → Entry) (j : Nat) (hj : j ≤ S.length) :
    sadStep S k L mk j (nlpClosed k L S j) (ncpClosed alphabet S j) =
      mk j (nextHigher k L S.length j) (ncpClosed alphabet S j) := by
  unfold sadStep
  rw [genLevels_getD k L S.length j hj, nextLevel_closed k L S j hj]

theorem sadLoop_closed (alphabet : Alphabet) (S : List Char) (k L : Nat)
    (mk : Nat → Nat → List (Char × Nat) → Entry) (hcl : ∀ c ∈ S, c ∈ alphabet) :
    ∀ s, s ≤ S.length →
      sadLoop S k L mk s (nlpClosed k L S s) (ncpClosed alphabet S s) =
        ((List.range (s + 1)).map
          (fun j => mk j (nextHigher k L S.length j) (ncpClosed alphabet S j))).reverse := by
  intro s
  induction s with
  | zero =>
    intro hs
    simp only [sadLoop]
    rw [sadStep_closed alphabet S k L mk 0 hs]
    rfl
  | succ s ih =>
    intro hs
    simp only [sadLoop]
    rw [sadStep_closed alphabet S k L mk (s + 1) hs]
    rw [genLevels_getD k L S.length (s + 1) hs]
    rw [nlp_step k L S s (by omega)]
    have hsS : s < S.length := by omega
    have hmem : S.getD s 'a' ∈ alphabet := by
      apply hcl
      rw [List.getD_eq_getElem S 'a' hsS]
      exact List.getElem_mem hsS
    rw [dictSet_closed alphabet S s hsS hmem]
    rw [ih (by omega)]
    rw [List.range_succ (s + 1), List.map_append, List.reverse_append]
    rfl

theorem levelTable_closed (alphabet : Alphabet) (S : List Char) (k L : Nat)
    (hcl : ∀ c ∈ S, c ∈ alphabet) :
    levelTableL alphabet S k L =
      (List.range (S.length + 1)).map
        (fun j => levelEntry S.length (nextHigher k L S.length j)
          (ncpClosed alphabet S j)) := by
  unfold levelTableL
  rw [initNlp_closed k L S, initNcp_closed alphabet S]
  rw [sadLoop_closed alphabet S k L _ hcl S.length le_rfl]
  rw [List.reverse_reverse]

theorem awareTable_closed (alphabet : Alphabet) (S : List Char)
    (hcl : ∀ c ∈ S, c ∈ alphabet) :
    awareTable alphabet S =
      (List.range (S.length + 1)).map
        (fun j => awareEntry alphabet S.length j
          (nextHigher 2 (lmax 2 alphabet.length) S.length j) (ncpClosed alphabet S j)) := by
  unfold awareTable
  rw [initNlp_closed 2 (lmax 2 alphabet.length) S, initNcp_closed alphabet S]
  rw [sadLoop_closed alphabet S 2 (lmax 2 alphabet.length) _ hcl S.length le_rfl]
  rw [List.reverse_reverse]

theorem dictSetO_closed (alphabet : Alphabet) (S : List Char) (s : Nat) (hs : s < S.length)
    (hmem : S.getD s 'a' ∈ alphabet) :
    dictSetO (nearestOClosed alphabet S (s + 1)) (S.getD s 'a') (s + 1) =
      nearestOClosed alphabet S s := by
  unfold dictSetO nearestOClosed
  have hany : (List.map (fun c =>
      (c, if nextOcc S (s + 1) c ≤ S.length then some (nextOcc S (s + 1) c) else none))
        alphabet).any (fun p => p.1 == S.getD s 'a') = true := by
    rw [List.any_eq_true]
    refine ⟨(S.getD s 'a', if nextOcc S (s + 1) (S.getD s 'a') ≤ S.length
      then some (nextOcc S (s + 1) (S.getD s 'a')) else none), List.mem_map_of_mem _ hmem, by simp⟩
  rw [if_pos hany, List.map_map]
  apply List.map_congr_left
  intro a _
  simp only [Function.comp_apply]
  by_cases h : a = S.getD s 'a'
  · have hb1 : (a == S.getD s 'a') = true := by rw [h]; simp
    have hb2 : (S.getD s 'a' == a) = true := by rw [h]; simp
    have hocc : nextOcc S s a = s + 1 := by
      rw [nextOcc_step S s a hs, if_pos hb2]
    rw [if_pos hb1, hocc, if_pos (by omega), h]
  · have hb1 : (a == S.getD s 'a') = false := beq_false_of_ne h
    have hb2 : (S.getD s 'a' == a) = false := beq_false_of_ne (fun he => h he.symm)
    have hocc : nextOcc S s a = nextOcc S (s + 1) a := by
      rw [nextOcc_step S s a hs, if_neg (by rw [hb2]; simp)]
    rw [if_neg (by rw [hb1]; simp), hocc]

theorem generalLoop_closed (alphabet : Alphabet) (S : List Char)
    (hcl : ∀ c ∈ S, c ∈ alphabet) :
    ∀ i, i ≤ S.length →
      generalLoop S i (nearestOClosed alphabet S i) =
        ((List.range i).map (fun j => generalEntryTrans alphabet S j)).reverse := by
  intro i
  induction i with
  | zero => intro _; rfl
  | succ i ih =>
    intro hi
    have hiS : i < S.length := by omega
    have hmem : S.getD i 'a' ∈ alphabet := by
      apply hcl
      rw [List.getD_eq_getElem S 'a' hiS]
      exact List.getElem_mem hiS
    simp only [generalLoop]
    rw [dictSetO_closed alphabet S i hiS hmem]
    rw [ih (by omega)]
    have hsnap : (nearestOClosed alphabet S i).filterMap
        (fun p => p.2.map (fun v => (p.1, v))) = generalEntryTrans alphabet S i := by
      unfold nearestOClosed generalEntryTrans
      rw [List.filterMap_map]
      apply List.filterMap_congr
      intro a _
      simp only [Function.comp_apply]
      by_cases h : nextOcc S i a ≤ S.length
      · rw [if_pos h, if_pos h]
        rfl
      · rw [if_neg h, if_neg h]
        rfl
    rw [hsnap]
    rw [List.range_succ i, List.map_append, List.reverse_append]
    rfl

theorem generalEntryTrans_last (alphabet : Alphabet) (S : List Char) :
    generalEntryTrans alphabet S S.length = [] := by
  unfold generalEntryTrans
  rw [List.filterMap_eq_nil_iff]
  intro a _
  rw [if_neg]
  rw [nextOcc_big S S.length a le_rfl]
  omega

theorem generalTable_closed (alphabet : Alphabet) (S : List Char)
    (hcl : ∀ c ∈ S, c ∈ alphabet) :
    generalTable alphabet S =
      (List.range (S.length + 1)).map
        (fun j => Entry.mk none (generalEntryTrans alphabet S j)) := by
  unfold generalTable
  have h0 : alphabet.map (fun c => (c, (none : Option Nat))) =
      nearestOClosed alphabet S S.length := by
    unfold nearestOClosed
    apply List.map_congr_left
    intro a _
    rw [if_neg]
    rw [nextOcc_big S S.length a le_rfl]
    omega
  rw [h0, generalLoop_closed alphabet S hcl S.length le_rfl, List.reverse_reverse]
  rw [List.range_succ, List.map_append, List.map_append, List.map_map]
  congr 1
  simp [generalEntryTrans_last alphabet S]

theorem getD_map_range (f : Nat → Entry) (n j : Nat) (hj : j ≤ n) :
    ((List.range (n + 1)).map f).getD j (Entry.mk none []) = f j := by
  rw [List.getD_eq_getElem _ _ (by simp; omega)]
  rw [List.getElem_map, List.getElem_range]

/-! ### Lookup characterization of the built entries -/

theorem levelEntry_lookup (alphabet : Alphabet) (S : List Char) (nextSt j : Nat) (c : Char) :
    List.lookup c (levelEntry S.length nextSt (ncpClosed alphabet S j)).trans =
      if c ∈ alphabet ∧ nextOcc S j c ≤ nextSt ∧ nextOcc S j c < S.length
      then some (nextOcc S j c) else none := by
  unfold levelEntry ncpClosed
  simp only
  rw [List.filterMap_map]
  exact lookup_filterMap_fun alphabet (fun a => nextOcc S j a)
    (fun a => nextOcc S j a ≤ nextSt ∧ nextOcc S j a < S.length) c

theorem sparseTrans_closed (alphabet : Alphabet) (S : List Char) (nextSt j : Nat) :
    sparseTrans S.length nextSt (ncpClosed alphabet S j) =
      alphabet.filterMap (fun a =>
        if 1 ≤ nextOcc S j a ∧ nextOcc S j a ≤ S.length ∧ nextOcc S j a ≤ nextSt
        then some (a, nextOcc S j a) else none) := by
  unfold sparseTrans ncpClosed
  rw [List.filterMap_map]
  rfl

theorem denseTrans_closed (alphabet : Alphabet) (S : List Char) (nextSt j : Nat) :
    denseTrans alphabet S.length nextSt (ncpClosed alphabet S j) =
      alphabet.filterMap (fun a =>
        if 1 ≤ nextOcc S j a ∧ nextOcc S j a ≤ S.length ∧ nextOcc S j a ≤ nextSt
        then some (a, nextOcc S j a) else none) := by
  unfold denseTrans
  apply List.filterMap_congr
  intro a ha
  have hlook : (List.lookup a (ncpClosed alphabet S j)).getD (S.length + 1) = nextOcc S j a := by
    unfold ncpClosed
    rw [lookup_map_fun alphabet (fun c => nextOcc S j c) a, if_pos ha]
    rfl
  simp only [hlook]

theorem awareEntry_trans_closed (alphabet : Alphabet) (S : List Char) (s nextSt : Nat) :
    (awareEntry alphabet S.length s nextSt (ncpClosed alphabet S s)).trans =
      alphabet.filterMap (fun a =>
        if 1 ≤ nextOcc S s a ∧ nextOcc S s a ≤ S.length ∧ nextOcc S s a ≤ nextSt
        then some (a, nextOcc S s a) else none) := by
  unfold awareEntry
  simp only
  by_cases h : alphabet.length ≤ nextSt - s
  · rw [if_pos h, denseTrans_closed]
  · rw [if_neg h, sparseTrans_closed]

theorem awareEntry_lookup (alphabet : Alphabet) (S : List Char) (s nextSt : Nat) (c : Char)
    (hs : s ≤ S.length) :
    List.lookup c (awareEntry alphabet S.length s nextSt (ncpClosed alphabet S s)).trans =
      if c ∈ alphabet ∧ nextOcc S s c ≤ nextSt ∧ nextOcc S s c ≤ S.length
      then some (nextOcc S s c) else none := by
  rw [awareEntry_trans_closed]
  rw [lookup_filterMap_fun alphabet (fun a => nextOcc S s a)
    (fun a => 1 ≤ nextOcc S s a ∧ nextOcc S s a ≤ S.length ∧ nextOcc S s a ≤ nextSt) c]
  have hp := nextOcc_gt S s c hs
  apply if_congr _ rfl rfl
  constructor
  · rintro ⟨h1, _, h3, h4⟩
    exact ⟨h1, h4, h3⟩
  · rintro ⟨h1, h2, h3⟩
    exact ⟨h1, by omega, h3, h2⟩

theorem generalEntry_lookup (alphabet : Alphabet) (S : List Char) (j : Nat) (c : Char) :
    List.lookup c (generalEntryTrans alphabet S j) =
      if c ∈ alphabet ∧ nextOcc S j c ≤ S.length then some (nextOcc S j c) else none :=
  lookup_filterMap_fun alphabet (fun a => nextOcc S j a)
    (fun a => nextOcc S j a ≤ S.length) c

/-! ### Correctness of the default-following symbol resolution -/

theorem resolve_correct (alphabet : Alphabet) (S : List Char) (k L B : Nat)
    (tbl : List Entry) (hB : B ≤ S.length)
    (htrans : ∀ j, j ≤ S.length → ∀ c : Char,
      List.lookup c ((tbl.getD j (Entry.mk none [])).trans) =
        if c ∈ alphabet ∧ nextOcc S j c ≤ nextHigher k L S.length j ∧ nextOcc S j c ≤ B
        then some (nextOcc S j c) else none)
    (hdflt : ∀ j, j ≤ S.length → (tbl.getD j (Entry.mk none [])).dflt =
        if nextHigher k L S.length j ≤ S.length then some (nextHigher k L S.length j)
        else none) :
    ∀ fuel j c, j ≤ S.length → L + 1 - levelOf k L j ≤ fuel →
      resolve tbl fuel j c =
        if c ∈ alphabet ∧ nextOcc S j c ≤ B then some (some (nextOcc S j c))
        else some none := by
  intro fuel
  induction fuel with
  | zero =>
    intro j c hj hfuel
    exfalso
    have := levelOf_le k L j
    omega
  | succ fuel ih =>
    intro j c hj hfuel
    have hl := htrans j hj c
    have hlvlj := levelOf_le k L j
    by_cases hc : c ∈ alphabet ∧ nextOcc S j c ≤ B
    · by_cases hnext : nextOcc S j c ≤ nextHigher k L S.length j
      · rw [if_pos ⟨hc.1, hnext, hc.2⟩] at hl
        rw [if_pos hc]
        simp only [resolve, hl]
      · rw [if_neg (by tauto)] at hl
        have hnh : nextHigher k L S.length j < nextOcc S j c := by omega
        have hdle : nextHigher k L S.length j ≤ S.length := by
          have := hc.2
          omega
        have hd := hdflt j hj
        rw [if_pos hdle] at hd
        have hgt : j < nextHigher k L S.length j := findAbove_gt _ _ _ hj
        have hlvl : levelOf k L j < levelOf k L (nextHigher k L S.length j) := by
          rcases findAbove_cases S.length j
              (fun m => decide (levelOf k L j < levelOf k L m)) with hx | ⟨_, _, hx⟩
          · unfold nextHigher at hdle
            omega
          · exact of_decide_eq_true hx
        have hlvlNH := levelOf_le k L (nextHigher k L S.length j)
        have hstable : nextOcc S (nextHigher k L S.length j) c = nextOcc S j c :=
          nextOcc_stable S c _ j (nextHigher k L S.length j) rfl (by omega) (by omega)
        simp only [resolve, hl, hd]
        rw [ih (nextHigher k L S.length j) c hdle (by omega)]
        rw [hstable]
    · rw [if_neg (by tauto)] at hl
      rw [if_neg hc]
      have hd := hdflt j hj
      by_cases hdle : nextHigher k L S.length j ≤ S.length
      · rw [if_pos hdle] at hd
        have hgt : j < nextHigher k L S.length j := findAbove_gt _ _ _ hj
        have hlvl : levelOf k L j < levelOf k L (nextHigher k L S.length j) := by
          rcases findAbove_cases S.length j
              (fun m => decide (levelOf k L j < levelOf k L m)) with hx | ⟨_, _, hx⟩
          · unfold nextHigher at hdle
            omega
          · exact of_decide_eq_true hx
        have hlvlNH := levelOf_le k L (nextHigher k L S.length j)
        simp only [resolve, hl, hd]
        rw [ih (nextHigher k L S.length j) c hdle (by omega)]
        rw [if_neg ?hreject]
        case hreject =>
          rintro ⟨h1, h2⟩
          apply hc
          refine ⟨h1, ?_⟩
          have := nextOcc_mono S c j (nextHigher k L S.length j) (by omega)
          omega
      · rw [if_neg hdle] at hd
        simp only [resolve, hl, hd]

/-! ### Instantiation of the resolution hypotheses for the two SAD tables -/

theorem level_htrans (alphabet : Alphabet) (S : List Char) (k L : Nat)
    (hcl : ∀ c ∈ S, c ∈ alphabet) :
    ∀ j, j ≤ S.length → ∀ c : Char,
      List.lookup c (((levelTableL alphabet S k L).getD j (Entry.mk none [])).trans) =
        if c ∈ alphabet ∧
            nextOcc S j c ≤ nextHigher k L S.length j ∧
            nextOcc S j c ≤ S.length - 1
        then some (nextOcc S j c) else none := by
  intro j hj c
  rw [levelTable_closed alphabet S k L hcl, getD_map_range _ _ _ hj]
  rw [levelEntry_lookup alphabet S _ j c]
  have hp := nextOcc_gt S j c hj
  apply if_congr _ rfl rfl
  constructor
  · rintro ⟨h1, h2, h3⟩
    exact ⟨h1, h2, by omega⟩
  · rintro ⟨h1, h2, h3⟩
    exact ⟨h1, h2, by omega⟩

theorem level_hdflt (alphabet : Alphabet) (S : List Char) (k L : Nat)
    (hcl : ∀ c ∈ S, c ∈ alphabet) :
    ∀ j, j ≤ S.length →
      ((levelTableL alphabet S k L).getD j (Entry.mk none [])).dflt =
        if nextHigher k L S.length j ≤ S.length
        then some (nextHigher k L S.length j) else none := by
  intro j hj
  rw [levelTable_closed alphabet S k L hcl, getD_map_range _ _ _ hj]
  rfl

theorem aware_htrans (alphabet : Alphabet) (S : List Char)
    (hcl : ∀ c ∈ S, c ∈ alphabet) :
    ∀ j, j ≤ S.length → ∀ c : Char,
      List.lookup c (((awareTable alphabet S).getD j (Entry.mk none [])).trans) =
        if c ∈ alphabet ∧
            nextOcc S j c ≤ nextHigher 2 (lmax 2 alphabet.length) S.length j ∧
            nextOcc S j c ≤ S.length
        then some (nextOcc S j c) else none := by
  intro j hj c
  rw [awareTable_closed alphabet S hcl, getD_map_range _ _ _ hj]
  exact awareEntry_lookup alphabet S j _ c hj

theorem aware_hdflt (alphabet : Alphabet) (S : List Char)
    (hcl : ∀ c ∈ S, c ∈ alphabet) :
    ∀ j, j ≤ S.length →
      ((awareTable alphabet S).getD j (Entry.mk none [])).dflt =
        if nextHigher 2 (lmax 2 alphabet.length) S.length j ≤ S.length
        then some (nextHigher 2 (lmax 2 alphabet.length) S.length j) else none := by
  intro j hj
  rw [awareTable_closed alphabet S hcl, getD_map_range _ _ _ hj]
  rfl

/-! ### Correctness of the three `Compute` procedures -/

theorem sadComputeAux_correct (alphabet : Alphabet) (S : List Char) (k L B : Nat)
    (tbl : List Entry) (hB : B ≤ S.length) (hcl : ∀ c ∈ S, c ∈ alphabet)
    (htrans : ∀ j, j ≤ S.length → ∀ c : Char,
      List.lookup c ((tbl.getD j (Entry.mk none [])).trans) =
        if c ∈ alphabet ∧ nextOcc S j c ≤ nextHigher k L S.length j ∧ nextOcc S j c ≤ B
        then some (nextOcc S j c) else none)
    (hdflt : ∀ j, j ≤ S.length → (tbl.getD j (Entry.mk none [])).dflt =
        if nextHigher k L S.length j ≤ S.length then some (nextHigher k L S.length j)
        else none) :
    ∀ (q : List Char) (j : Nat), j ≤ S.length →
      sadComputeAux alphabet tbl (L + 1) j q = isSubsequence q ((S.take B).drop j) := by
  intro q
  induction q with
  | nil =>
    intro j hj
    rw [isSubsequence_nil]
    rfl
  | cons c rest ih =>
    intro j hj
    simp only [sadComputeAux]
    by_cases hmem : c ∈ alphabet
    · rw [if_pos (show alphabet.contains c = true from List.elem_iff.mpr hmem)]
      rw [resolve_correct alphabet S k L B tbl hB htrans hdflt (L + 1) j c hj
        (by have := levelOf_le k L j; omega)]
      by_cases hcc : nextOcc S j c ≤ B
      · rw [if_pos ⟨hmem, hcc⟩]
        rw [greedy_step S B hB c rest (B - j) j rfl, if_pos hcc]
        exact ih (nextOcc S j c) (by omega)
      · rw [if_neg (by tauto)]
        rw [greedy_step S B hB c rest (B - j) j rfl, if_neg hcc]
    · rw [if_neg (show ¬ alphabet.contains c = true from
        fun hct => hmem (List.elem_iff.mp hct))]
      rw [greedy_step S B hB c rest (B - j) j rfl]
      have hno : nextOcc S j c = S.length + 1 :=
        nextOcc_not_mem S j c (fun hcS => hmem (hcl c hcS))
      rw [if_neg (by omega)]

theorem levelCompute_correct (alphabet : Alphabet) (S : List Char) (k L : Nat)
    (q : List Char) (hcl : ∀ c ∈ S, c ∈ alphabet) :
    levelComputeL alphabet S k L q = isSubsequence q S.dropLast := by
  unfold levelComputeL
  rw [sadComputeAux_correct alphabet S k L (S.length - 1)
    (levelTableL alphabet S k L) (by omega) hcl
    (level_htrans alphabet S k L hcl) (level_hdflt alphabet S k L hcl) q 0 (by omega)]
  rw [List.drop_zero, List.dropLast_eq_take]

theorem awareCompute_correct (alphabet : Alphabet) (S : List Char)
    (q : List Char) (hcl : ∀ c ∈ S, c ∈ alphabet) :
    awareCompute alphabet S q = isSubsequence q S := by
  unfold awareCompute
  rw [sadComputeAux_correct alphabet S 2 (lmax 2 alphabet.length) S.length
    (awareTable alphabet S) le_rfl hcl
    (aware_htrans alphabet S hcl) (aware_hdflt alphabet S hcl) q 0 (by omega)]
  rw [List.drop_zero, List.take_length]

theorem generalComputeAux_correct (alphabet : Alphabet) (S : List Char)
    (hcl : ∀ c ∈ S, c ∈ alphabet) :
    ∀ (q : List Char) (j : Nat), j ≤ S.length →
      generalComputeAux alphabet (generalTable alphabet S) j q =
        isSubsequence q ((S.take S.length).drop j) := by
  intro q
  induction q with
  | nil =>
    intro j hj
    rw [isSubsequence_nil]
    rfl
  | cons c rest ih =>
    intro j hj
    simp only [generalComputeAux]
    have hl : List.lookup c (((generalTable alphabet S).getD j (Entry.mk none [])).trans) =
        if c ∈ alphabet ∧ nextOcc S j c ≤ S.length then some (nextOcc S j c) else none := by
      rw [generalTable_closed alphabet S hcl, getD_map_range _ _ _ hj]
      exact generalEntry_lookup alphabet S j c
    by_cases hmem : c ∈ alphabet
    · rw [if_pos (show alphabet.contains c = true from List.elem_iff.mpr hmem)]
      by_cases hcc : nextOcc S j c ≤ S.length
      · rw [if_pos ⟨hmem, hcc⟩] at hl
        simp only [hl]
        rw [greedy_step S S.length le_rfl c rest (S.length - j) j rfl, if_pos hcc]
        exact ih (nextOcc S j c) hcc
      · rw [if_neg (by tauto)] at hl
        simp only [hl]
        rw [greedy_step S S.length le_rfl c rest (S.length - j) j rfl, if_neg hcc]
    · rw [if_neg (show ¬ alphabet.contains c = true from
        fun hct => hmem (List.elem_iff.mp hct))]
      rw [greedy_step S S.length le_rfl c rest (S.length - j) j rfl]
      have hno : nextOcc S j c = S.length + 1 :=
        nextOcc_not_mem S j c (fun hcS => hmem (hcl c hcS))
      rw [if_neg (by omega)]

theorem generalCompute_correct (alphabet : Alphabet) (S : List Char)
    (q : List Char) (hcl : ∀ c ∈ S, c ∈ alphabet) :
    generalCompute alphabet S q = isSubsequence q S := by
  unfold generalCompute
  rw [generalComputeAux_correct alphabet S hcl q 0 (by omega)]
  rw [List.drop_zero, List.take_length]

/-! ### Table sizes -/

theorem sadLoop_length (S : List Char) (k L : Nat)
    (mk : Nat → Nat → List (Char × Nat) → Entry) :
    ∀ s nlp ncp, (sadLoop S k L mk s nlp ncp).length = s + 1 := by
  intro s
  induction s with
  | zero => intro nlp ncp; rfl
  | succ s ih =>
    intro nlp ncp
    simp only [sadLoop, List.length_cons, ih]

theorem generalLoop_length (S : List Char) :
    ∀ i nearest, (generalLoop S i nearest).length = i := by
  intro i
  induction i with
  | zero => intro nearest; rfl
  | succ i ih =>
    intro nearest
    simp only [generalLoop, List.length_cons, ih]

theorem levelTable_length (alphabet : Alphabet) (S : List Char) (k L : Nat) :
    (levelTableL alphabet S k L).length = S.length + 1 := by
  unfold levelTableL
  rw [List.length_reverse, sadLoop_length]

theorem awareTable_length (alphabet : Alphabet) (S : List Char) :
    (awareTable alphabet S).length = S.length + 1 := by
  unfold awareTable
  rw [List.length_reverse, sadLoop_length]

theorem generalTable_length (alphabet : Alphabet) (S : List Char) :
    (generalTable alphabet S).length = S.length + 1 := by
  unfold generalTable
  rw [List.length_map, List.length_append, List.length_reverse, generalLoop_length]
  rfl

/-! ### Membership characterization of explicit transitions -/

theorem mem_filterMap_fun (alphabet : Alphabet) (f : Char → Nat) (p : Char → Prop)
    [DecidablePred p] (c : Char) (v : Nat) :
    (c, v) ∈ alphabet.filterMap (fun a => if p a then some (a, f a) else none) ↔
      c ∈ alphabet ∧ v = f c ∧ p c := by
  rw [List.mem_filterMap]
  constructor
  · rintro ⟨a, ha, hfa⟩
    by_cases hp : p a
    · rw [if_pos hp] at hfa
      have h1 : a = c := congrArg Prod.fst (Option.some.inj hfa)
      have h2 : f a = v := congrArg Prod.snd (Option.some.inj hfa)
      subst h1
      exact ⟨ha, h2.symm, hp⟩
    · rw [if_neg hp] at hfa
      cases hfa
  · rintro ⟨h1, h2, h3⟩
    exact ⟨c, h1, by rw [if_pos h3, h2]⟩

theorem levelEntry_trans_canonical (alphabet : Alphabet) (S : List Char) (nextSt j : Nat) :
    (levelEntry S.length nextSt (ncpClosed alphabet S j)).trans =
      alphabet.filterMap (fun a =>
        if nextOcc S j a ≤ nextSt ∧ nextOcc S j a < S.length
        then some (a, nextOcc S j a) else none) := by
  unfold levelEntry ncpClosed
  simp only
  rw [List.filterMap_map]
  rfl

/-! ### The statistics loop -/

theorem entrySize_explicit (e : Entry) :
    (if e.dflt.isSome then entrySize e - 1 else entrySize e) = e.trans.length := by
  unfold entrySize
  rcases e.dflt with _ | d <;> simp

theorem infoCounts_closed :
    ∀ (tbl : List Entry) (acc : Counts),
      tbl.foldl
        (fun acc e =>
          { vertices := acc.vertices + 1
            edges := acc.edges + entrySize e
            defaults := acc.defaults + (if e.dflt.isSome then 1 else 0)
            explicits := acc.explicits +
              (if e.dflt.isSome then entrySize e - 1 else entrySize e) }) acc =
        { vertices := acc.vertices + tbl.length
          edges := acc.edges + (tbl.map entrySize).sum
          defaults := acc.defaults + (tbl.map (fun e => if e.dflt.isSome then 1 else 0)).sum
          explicits := acc.explicits + (tbl.map (fun e => e.trans.length)).sum } := by
  intro tbl
  induction tbl with
  | nil => intro acc; simp
  | cons e tbl ih =>
    intro acc
    rw [List.foldl_cons, ih]
    simp only [List.length_cons, List.map_cons, List.sum_cons, entrySize_explicit]
    simp only [Counts.mk.injEq]
    refine ⟨by omega, by omega, by omega, by omega⟩

theorem infoCounts_eq (tbl : List Entry) :
    infoCounts tbl =
      { vertices := tbl.length
        edges := (tbl.map entrySize).sum
        defaults := (tbl.map (fun e => if e.dflt.isSome then 1 else 0)).sum
        explicits := (tbl.map (fun e => e.trans.length)).sum } := by
  unfold infoCounts
  rw [infoCounts_closed tbl ⟨0, 0, 0, 0⟩]
  simp

theorem counts_sum_eq (tbl : List Entry) :
    (tbl.map (fun e => if e.dflt.isSome then 1 else 0)).sum +
      (tbl.map (fun e => e.trans.length)).sum = (tbl.map entrySize).sum := by
  induction tbl with
  | nil => rfl
  | cons e tbl ih =>
    simp only [List.map_cons, List.sum_cons]
    have hE : entrySize e = e.trans.length + (if e.dflt.isSome then 1 else 0) := rfl
    rw [hE]
    omega

theorem GetInfo_props (alphabet : Alphabet) (tbl : List Entry) (d : AutomatonData)
    (h : GetInfo alphabet tbl = some d) :
    d.defaultTranstions + d.explicitTransitions = d.edgeCount ∧
    0 ≤ d.defaultRatio ∧ d.defaultRatio ≤ 1 ∧
    0 ≤ d.explicitRatio ∧ d.explicitRatio ≤ 1 ∧
    d.defaultRatio + d.explicitRatio = 1 := by
  unfold GetInfo at h
  by_cases hz : (infoCounts tbl).edges = 0 ∨ alphabet.length = 0
  · rw [if_pos hz] at h
    cases h
  · rw [if_neg hz] at h
    have hd := Option.some.inj h
    subst hd
    simp only
    rw [infoCounts_eq tbl]
    simp only
    have hsum := counts_sum_eq tbl
    rw [infoCounts_eq tbl] at hz
    simp only at hz
    push_neg at hz
    have hedge : 0 < (tbl.map entrySize).sum := Nat.pos_of_ne_zero hz.1
    have hedgeQ : (0 : ℚ) < ((tbl.map entrySize).sum : ℚ) := by
      exact_mod_cast hedge
    have hdle : (tbl.map (fun e => if e.dflt.isSome then 1 else 0)).sum ≤
        (tbl.map entrySize).sum := by omega
    have hele : (tbl.map (fun e => e.trans.length)).sum ≤ (tbl.map entrySize).sum := by omega
    refine ⟨by omega, ?_, ?_, ?_, ?_, ?_⟩
    · positivity
    · rw [div_le_one hedgeQ]
      exact_mod_cast hdle
    · positivity
    · rw [div_le_one hedgeQ]
      exact_mod_cast hele
    · rw [div_add_div_same]
      rw [div_eq_one_iff_eq (ne_of_gt hedgeQ)]
      exact_mod_cast hsum

theorem GetInfo_none_iff (alphabet : Alphabet) (tbl : List Entry) :
    GetInfo alphabet tbl = none ↔
      ((infoCounts tbl).edges = 0 ∨ alphabet.length = 0) := by
  unfold GetInfo
  by_cases hz : (infoCounts tbl).edges = 0 ∨ alphabet.length = 0
  · rw [if_pos hz]
    exact iff_of_true rfl hz
  · rw [if_neg hz]
    exact iff_of_false (by simp) hz

/-! ### The default target is the nearest strictly-higher-level state -/

theorem nextHigher_spec (k L n j : Nat) (hj : j ≤ n) (h : nextHigher k L n j ≤ n) :
    j < nextHigher k L n j ∧ levelOf k L j < levelOf k L (nextHigher k L n j) ∧
      ∀ m, j < m → m < nextHigher k L n j → levelOf k L m ≤ levelOf k L j := by
  unfold nextHigher at h ⊢
  rcases findAbove_cases n j (fun m => decide (levelOf k L j < levelOf k L m)) with
    hx | ⟨h1, h2, h3⟩
  · omega
  · refine ⟨h1, of_decide_eq_true h3, ?_⟩
    intro m hm1 hm2
    have hmin := findAbove_min n j (fun m => decide (levelOf k L j < levelOf k L m))
      m hm1 hm2 (by omega)
    simp only [decide_eq_false_iff_not] at hmin
    omega

theorem nextHigher_last (k L n : Nat) : nextHigher k L n n = n + 1 :=
  findAbove_stop n n (fun m => decide (levelOf k L n < levelOf k L m)) le_rfl

/-! ### Span-independence of the alphabet-aware table -/

theorem awareTableSparse_closed (alphabet : Alphabet) (S : List Char)
    (hcl : ∀ c ∈ S, c ∈ alphabet) :
    awareTableSparse alphabet S =
      (List.range (S.length + 1)).map
        (fun j => awareEntrySparse S.length (nextHigher 2 (lmax 2 alphabet.length) S.length j)
          (ncpClosed alphabet S j)) := by
  unfold awareTableSparse
  rw [initNlp_closed 2 (lmax 2 alphabet.length) S, initNcp_closed alphabet S]
  rw [sadLoop_closed alphabet S 2 (lmax 2 alphabet.length) _ hcl S.length le_rfl]
  rw [List.reverse_reverse]

theorem awareTable_eq_sparse (alphabet : Alphabet) (S : List Char)
    (hcl : ∀ c ∈ S, c ∈ alphabet) :
    awareTable alphabet S = awareTableSparse alphabet S := by
  rw [awareTable_closed alphabet S hcl, awareTableSparse_closed alphabet S hcl]
  apply List.map_congr_left
  intro j _
  unfold awareEntry awareEntrySparse
  congr 1
  by_cases hspan : alphabet.length ≤ nextHigher 2 (lmax 2 alphabet.length) S.length j - j
  · rw [if_pos hspan, denseTrans_closed, sparseTrans_closed]
  · rw [if_neg hspan]

/-! ### Membership form of the recording rules -/

theorem levelTable_trans_mem (alphabet : Alphabet) (S : List Char) (k L j : Nat)
    (c : Char) (p : Nat) (hcl : ∀ c' ∈ S, c' ∈ alphabet) (hj : j ≤ S.length) :
    ((c, p) ∈ (((levelTableL alphabet S k L).getD j (Entry.mk none [])).trans) ↔
      c ∈ alphabet ∧ p = nextOcc S j c ∧
        p ≤ nextHigher k L S.length j ∧ p < S.length) := by
  rw [levelTable_closed alphabet S k L hcl, getD_map_range _ _ _ hj]
  rw [levelEntry_trans_canonical alphabet S _ j]
  rw [mem_filterMap_fun alphabet (fun a => nextOcc S j a)
    (fun a => nextOcc S j a ≤ nextHigher k L S.length j ∧
      nextOcc S j a < S.length) c p]
  constructor
  · rintro ⟨h1, h2, h3, h4⟩
    exact ⟨h1, h2, by omega, by omega⟩
  · rintro ⟨h1, h2, h3, h4⟩
    exact ⟨h1, h2, by omega, by omega⟩

theorem awareTable_trans_mem (alphabet : Alphabet) (S : List Char) (j : Nat)
    (c : Char) (p : Nat) (hcl : ∀ c' ∈ S, c' ∈ alphabet) (hj : j ≤ S.length) :
    ((c, p) ∈ (((awareTable alphabet S).getD j (Entry.mk none [])).trans) ↔
      c ∈ alphabet ∧ p = nextOcc S j c ∧
        p ≤ nextHigher 2 (lmax 2 alphabet.length) S.length j ∧ p ≤ S.length) := by
  rw [awareTable_closed alphabet S hcl, getD_map_range _ _ _ hj]
  rw [awareEntry_trans_closed alphabet S j]
  rw [mem_filterMap_fun alphabet (fun a => nextOcc S j a)
    (fun a => 1 ≤ nextOcc S j a ∧ nextOcc S j a ≤ S.length ∧
      nextOcc S j a ≤ nextHigher 2 (lmax 2 alphabet.length) S.length j) c p]
  have hp := nextOcc_gt S j c hj
  constructor
  · rintro ⟨h1, h2, _, h4, h5⟩
    exact ⟨h1, h2, by omega, by omega⟩
  · rintro ⟨h1, h2, h3, h4⟩
    exact ⟨h1, h2, by omega, by omega, by omega⟩

theorem generalTable_trans_mem (alphabet : Alphabet) (S : List Char) (j : Nat)
    (c : Char) (p : Nat) (hcl : ∀ c' ∈ S, c' ∈ alphabet) (hj : j ≤ S.length) :
    ((c, p) ∈ (((generalTable alphabet S).getD j (Entry.mk none [])).trans) ↔
      c ∈ alphabet ∧ p = nextOcc S j c ∧ p ≤ S.length) := by
  rw [generalTable_closed alphabet S hcl, getD_map_range _ _ _ hj]
  have : (Entry.mk none (generalEntryTrans alphabet S j)).trans =
      generalEntryTrans alphabet S j := rfl
  rw [this]
  unfold generalEntryTrans
  rw [mem_filterMap_fun alphabet (fun a => nextOcc S j a)
    (fun a => nextOcc S j a ≤ S.length) c p]
  constructor
  · rintro ⟨h1, h2, h3⟩
    exact ⟨h1, h2, by omega⟩
  · rintro ⟨h1, h2, h3⟩
    exact ⟨h1, h2, by omega⟩

/-! ## Claim theorems -/

/-- C1, counterexample: with Σ = {a, b}, S = "ab", k = 2, the query "b" is a
subsequence of S and is accepted by the general and alphabet-aware automata,
but the level-k automaton rejects it, so the three variants do not accept the
same queries and the level-k variant does not decide the subsequence
predicate. -/
theorem C1_counterexample :
    isSubsequence ['b'] ['a', 'b'] = true ∧
    generalCompute ['a', 'b'] ['a', 'b'] ['b'] = true ∧
    awareCompute ['a', 'b'] ['a', 'b'] ['b'] = true ∧
    levelCompute ['a', 'b'] ['a', 'b'] 2 ['b'] = false :=
  ⟨by decide, by decide, by decide, by decide⟩

/-- C1, amended: for every alphabet containing the characters of S, every
base k > 1, a nonempty alphabet, and every level cap L — quantifying over L
covers whatever cap the constructor's floating-point `ceil(log(σ, k))`
produces, rounding quirks included — the general and alphabet-aware automata
decide exactly "q is a subsequence of S"; the level-k automaton instead
decides "q is a subsequence of S with its final character removed", because
its construction omits every transition into the terminal state. -/
theorem C1_claim (alphabet : Alphabet) (S q : List Char) (k L : Nat)
    (hcl : ∀ c ∈ S, c ∈ alphabet) (hk : 2 ≤ k) (hσ : 1 ≤ alphabet.length) :
    generalCompute alphabet S q = isSubsequence q S ∧
    awareCompute alphabet S q = isSubsequence q S ∧
    levelComputeL alphabet S k L q = isSubsequence q S.dropLast :=
  ⟨generalCompute_correct alphabet S q hcl, awareCompute_correct alphabet S q hcl,
    levelCompute_correct alphabet S k L q hcl⟩

/-- C1, witness for the amended theorem at Σ = {a, b}, S = "aba", k = 2, cap
L = 1 (the value the source computes there, float-exact), q = "ba". -/
theorem C1_witness :
    generalCompute ['a', 'b'] ['a', 'b', 'a'] ['b', 'a'] =
        isSubsequence ['b', 'a'] ['a', 'b', 'a'] ∧
    awareCompute ['a', 'b'] ['a', 'b', 'a'] ['b', 'a'] =
        isSubsequence ['b', 'a'] ['a', 'b', 'a'] ∧
    levelComputeL ['a', 'b'] ['a', 'b', 'a'] 2 1 ['b', 'a'] =
        isSubsequence ['b', 'a'] (List.dropLast ['a', 'b', 'a']) :=
  C1_claim ['a', 'b'] ['a', 'b', 'a'] ['b', 'a'] 2 1 (by decide) (by decide) (by decide)

/-- C3, counterexample: the alphabet-aware and general constructors accept an
empty alphabet without any error and return a usable instance (so
construction does not fail for σ = 0 "for any variant"); the Level-k
constructor does fail for k = 1, but through an uncaught arithmetic error in
`ceil(log(σ, k))` (modelled by `none`), not a dedicated InvalidParameter. -/
theorem C3_counterexample :
    awareTable [] [] = [Entry.mk none []] ∧
    generalTable [] [] = [Entry.mk none []] ∧
    awareCompute [] [] [] = true ∧
    levelInit ['a'] ['a'] 1 = none :=
  ⟨by decide, by decide, by decide, by decide⟩

/-- C3, amended: the Level-k constructor fails at construction time (before
any instance exists) exactly when k ≤ 1 or σ = 0, via the uncaught
ZeroDivisionError / math-domain error of `ceil(log(σ, k))`; the
alphabet-aware and general constructors perform no parameter validation and
always return a table of n + 1 states, even for an empty alphabet. -/
theorem C3_claim (alphabet : Alphabet) (S : List Char) (k : Nat) :
    ((levelInit alphabet S k).isSome ↔ 2 ≤ k ∧ 1 ≤ alphabet.length) ∧
    (awareTable alphabet S).length = S.length + 1 ∧
    (generalTable alphabet S).length = S.length + 1 := by
  refine ⟨?_, awareTable_length alphabet S, generalTable_length alphabet S⟩
  unfold levelInit
  by_cases h : k ≤ 1 ∨ alphabet.length = 0
  · rw [if_pos h]
    simp only [Option.isSome_none, Bool.false_eq_true, false_iff]
    omega
  · rw [if_neg h]
    simp only [Option.isSome_some, true_iff]
    omega

/-- C4, counterexample: on the automaton built from S = "" (total edge count
zero) `GetInfo` hits the unguarded division and raises — modelled by `none` —
instead of returning a sentinel or a documented error value. -/
theorem C4_counterexample : GetInfo ['a'] (generalTable ['a'] []) = none := by decide

/-- C4, amended: `GetInfo` propagates the unhandled ZeroDivisionError
(modelled by `none`) exactly when the total edge count is zero or σ is zero;
no sentinel value is substituted (the source comments that no protection
against division by zero is added). -/
theorem C4_claim (alphabet : Alphabet) (tbl : List Entry) :
    GetInfo alphabet tbl = none ↔
      ((infoCounts tbl).edges = 0 ∨ alphabet.length = 0) :=
  GetInfo_none_iff alphabet tbl

/-- One iteration of the inner lookup loop that finds no explicit transition
and follows the default. -/
theorem resolve_step_default (tbl : List Entry) (fuel state : Nat) (c : Char) (d : Nat)
    (hl : List.lookup c ((tbl.getD state (Entry.mk none [])).trans) = none)
    (hd : (tbl.getD state (Entry.mk none [])).dflt = some d) :
    resolve tbl (fuel + 1) state c = resolve tbl fuel d c := by
  simp only [resolve, hl, hd]

/-- One iteration of the inner lookup loop that finds neither an explicit
transition nor a default and rejects. -/
theorem resolve_step_reject (tbl : List Entry) (fuel state : Nat) (c : Char)
    (hl : List.lookup c ((tbl.getD state (Entry.mk none [])).trans) = none)
    (hd : (tbl.getD state (Entry.mk none [])).dflt = none) :
    resolve tbl (fuel + 1) state c = some none := by
  simp only [resolve, hl, hd]

/-- C5, code bug: the claimed delay bound fails on the real program.  At
σ = 125, k = 5 the source's floating-point `ceil(log(125, 5))` is 4, not the
exact ceiling `lmax 5 125 = 3` (witnessed here by `5 ^ 3 = 125`), so its
table contains a level-4 state at index 625; on the reference string `c5S`
the level cap 4 yields the default chain 1 → 5 → 25 → 125 → 625, and
resolving the symbol that occurs only at position 625 from state 1 is still
undecided after `lmax 5 125 + 1 = 4` loop iterations (budget exhausted,
`none`), reaching its decision (rejection) only at the fifth iteration —
one more than the `Lmax + 1 = ceil(log_k σ) + 1` transitions the claim
allows per query symbol. -/
theorem C5_claim :
    lmax 5 125 = 3 ∧ 5 ^ 3 = 125 ∧
    resolve (levelTableL c5A c5S 5 4) (lmax 5 125 + 1) 1 (Char.ofNat 157) = none ∧
    resolve (levelTableL c5A c5S 5 4) (lmax 5 125 + 2) 1 (Char.ofNat 157) = some none := by
  have hlm : lmax 5 125 = 3 := by decide
  have hcl : ∀ ch ∈ c5S, ch ∈ c5A := by decide
  have hl1 : List.lookup (Char.ofNat 157)
      (((levelTableL c5A c5S 5 4).getD 1 (Entry.mk none [])).trans) = none := by
    rw [level_htrans c5A c5S 5 4 hcl 1 (by decide) (Char.ofNat 157)]
    decide
  have hd1 : ((levelTableL c5A c5S 5 4).getD 1 (Entry.mk none [])).dflt = some 5 := by
    rw [level_hdflt c5A c5S 5 4 hcl 1 (by decide)]
    decide
  have hl5 : List.lookup (Char.ofNat 157)
      (((levelTableL c5A c5S 5 4).getD 5 (Entry.mk none [])).trans) = none := by
    rw [level_htrans c5A c5S 5 4 hcl 5 (by decide) (Char.ofNat 157)]
    decide
  have hd5 : ((levelTableL c5A c5S 5 4).getD 5 (Entry.mk none [])).dflt = some 25 := by
    rw [level_hdflt c5A c5S 5 4 hcl 5 (by decide)]
    decide
  have hl25 : List.lookup (Char.ofNat 157)
      (((levelTableL c5A c5S 5 4).getD 25 (Entry.mk none [])).trans) = none := by
    rw [level_htrans c5A c5S 5 4 hcl 25 (by decide) (Char.ofNat 157)]
    decide
  have hd25 : ((levelTableL c5A c5S 5 4).getD 25 (Entry.mk none [])).dflt = some 125 := by
    rw [level_hdflt c5A c5S 5 4 hcl 25 (by decide)]
    decide
  have hl125 : List.lookup (Char.ofNat 157)
      (((levelTableL c5A c5S 5 4).getD 125 (Entry.mk none [])).trans) = none := by
    rw [level_htrans c5A c5S 5 4 hcl 125 (by decide) (Char.ofNat 157)]
    decide
  have hd125 : ((levelTableL c5A c5S 5 4).getD 125 (Entry.mk none [])).dflt =
      some 625 := by
    rw [level_hdflt c5A c5S 5 4 hcl 125 (by decide)]
    decide
  have hl625 : List.lookup (Char.ofNat 157)
      (((levelTableL c5A c5S 5 4).getD 625 (Entry.mk none [])).trans) = none := by
    rw [level_htrans c5A c5S 5 4 hcl 625 (by decide) (Char.ofNat 157)]
    decide
  have hd625 : ((levelTableL c5A c5S 5 4).getD 625 (Entry.mk none [])).dflt = none := by
    rw [level_hdflt c5A c5S 5 4 hcl 625 (by decide)]
    decide
  have e1 : resolve (levelTableL c5A c5S 5 4) (3 + 1) 1 (Char.ofNat 157) =
      resolve (levelTableL c5A c5S 5 4) (2 + 1) 5 (Char.ofNat 157) :=
    resolve_step_default (levelTableL c5A c5S 5 4) 3 1 (Char.ofNat 157) 5 hl1 hd1
  have e2 : resolve (levelTableL c5A c5S 5 4) (2 + 1) 5 (Char.ofNat 157) =
      resolve (levelTableL c5A c5S 5 4) (1 + 1) 25 (Char.ofNat 157) :=
    resolve_step_default (levelTableL c5A c5S 5 4) 2 5 (Char.ofNat 157) 25 hl5 hd5
  have e3 : resolve (levelTableL c5A c5S 5 4) (1 + 1) 25 (Char.ofNat 157) =
      resolve (levelTableL c5A c5S 5 4) (0 + 1) 125 (Char.ofNat 157) :=
    resolve_step_default (levelTableL c5A c5S 5 4) 1 25 (Char.ofNat 157) 125 hl25 hd25
  have e4 : resolve (levelTableL c5A c5S 5 4) (0 + 1) 125 (Char.ofNat 157) = none :=
    resolve_step_default (levelTableL c5A c5S 5 4) 0 125 (Char.ofNat 157) 625 hl125 hd125
  have f1 : resolve (levelTableL c5A c5S 5 4) (4 + 1) 1 (Char.ofNat 157) =
      resolve (levelTableL c5A c5S 5 4) (3 + 1) 5 (Char.ofNat 157) :=
    resolve_step_default (levelTableL c5A c5S 5 4) 4 1 (Char.ofNat 157) 5 hl1 hd1
  have f2 : resolve (levelTableL c5A c5S 5 4) (3 + 1) 5 (Char.ofNat 157) =
      resolve (levelTableL c5A c5S 5 4) (2 + 1) 25 (Char.ofNat 157) :=
    resolve_step_default (levelTableL c5A c5S 5 4) 3 5 (Char.ofNat 157) 25 hl5 hd5
  have f3 : resolve (levelTableL c5A c5S 5 4) (2 + 1) 25 (Char.ofNat 157) =
      resolve (levelTableL c5A c5S 5 4) (1 + 1) 125 (Char.ofNat 157) :=
    resolve_step_default (levelTableL c5A c5S 5 4) 2 25 (Char.ofNat 157) 125 hl25 hd25
  have f4 : resolve (levelTableL c5A c5S 5 4) (1 + 1) 125 (Char.ofNat 157) =
      resolve (levelTableL c5A c5S 5 4) (0 + 1) 625 (Char.ofNat 157) :=
    resolve_step_default (levelTableL c5A c5S 5 4) 1 125 (Char.ofNat 157) 625 hl125 hd125
  have f5 : resolve (levelTableL c5A c5S 5 4) (0 + 1) 625 (Char.ofNat 157) =
      some none :=
    resolve_step_reject (levelTableL c5A c5S 5 4) 0 625 (Char.ofNat 157) hl625 hd625
  refine ⟨hlm, by decide, ?_, ?_⟩
  · rw [hlm, e1, e2, e3, e4]
  · rw [hlm]
    show resolve (levelTableL c5A c5S 5 4) (4 + 1) 1 (Char.ofNat 157) = some none
    rw [f1, f2, f3, f4, f5]

/-- C6, confirmed: in every built table — for the Level-k variant with any
level cap L, covering the cap its floating-point Lmax computation actually
produces — every explicit transition out of a state targets a strictly
greater state; a default transition, when present, targets the nearest
(smallest-index) state above the source whose level is strictly higher;
state n carries no default transition in either level-based variant, and in
the general variant state n has no transitions at all. -/
theorem C6_claim (alphabet : Alphabet) (S : List Char) (k L j : Nat)
    (hcl : ∀ c ∈ S, c ∈ alphabet) (hj : j ≤ S.length) :
    (∀ c p, (c, p) ∈ ((levelTableL alphabet S k L).getD j (Entry.mk none [])).trans →
      j < p) ∧
    (∀ c p, (c, p) ∈ ((awareTable alphabet S).getD j (Entry.mk none [])).trans →
      j < p) ∧
    (∀ c p, (c, p) ∈ ((generalTable alphabet S).getD j (Entry.mk none [])).trans →
      j < p) ∧
    (∀ d, ((levelTableL alphabet S k L).getD j (Entry.mk none [])).dflt = some d →
      j < d ∧ d ≤ S.length ∧
        levelOf k L j < levelOf k L d ∧
        ∀ m, j < m → m < d → levelOf k L m ≤ levelOf k L j) ∧
    (∀ d, ((awareTable alphabet S).getD j (Entry.mk none [])).dflt = some d →
      j < d ∧ d ≤ S.length ∧
        levelOf 2 (lmax 2 alphabet.length) j < levelOf 2 (lmax 2 alphabet.length) d ∧
        ∀ m, j < m → m < d →
          levelOf 2 (lmax 2 alphabet.length) m ≤ levelOf 2 (lmax 2 alphabet.length) j) ∧
    ((levelTableL alphabet S k L).getD S.length (Entry.mk none [])).dflt = none ∧
    ((awareTable alphabet S).getD S.length (Entry.mk none [])).dflt = none ∧
    ((generalTable alphabet S).getD S.length (Entry.mk none [])).trans = [] := by
  refine ⟨?_, ?_, ?_, ?_, ?_, ?_, ?_, ?_⟩
  · intro c p hp
    rw [levelTable_trans_mem alphabet S k L j c p hcl hj] at hp
    have := nextOcc_gt S j c hj
    omega
  · intro c p hp
    rw [awareTable_trans_mem alphabet S j c p hcl hj] at hp
    have := nextOcc_gt S j c hj
    omega
  · intro c p hp
    rw [generalTable_trans_mem alphabet S j c p hcl hj] at hp
    have := nextOcc_gt S j c hj
    omega
  · intro d hd
    rw [level_hdflt alphabet S k L hcl j hj] at hd
    by_cases hle : nextHigher k L S.length j ≤ S.length
    · rw [if_pos hle] at hd
      obtain rfl := Option.some.inj hd
      obtain ⟨h1, h2, h3⟩ := nextHigher_spec k L S.length j hj hle
      exact ⟨h1, hle, h2, h3⟩
    · rw [if_neg hle] at hd
      cases hd
  · intro d hd
    rw [aware_hdflt alphabet S hcl j hj] at hd
    by_cases hle : nextHigher 2 (lmax 2 alphabet.length) S.length j ≤ S.length
    · rw [if_pos hle] at hd
      obtain rfl := Option.some.inj hd
      obtain ⟨h1, h2, h3⟩ := nextHigher_spec 2 (lmax 2 alphabet.length) S.length j hj hle
      exact ⟨h1, hle, h2, h3⟩
    · rw [if_neg hle] at hd
      cases hd
  · rw [level_hdflt alphabet S k L hcl S.length le_rfl, nextHigher_last,
      if_neg (by omega)]
  · rw [aware_hdflt alphabet S hcl S.length le_rfl, nextHigher_last,
      if_neg (by omega)]
  · rw [generalTable_closed alphabet S hcl, getD_map_range _ _ _ le_rfl]
    exact generalEntryTrans_last alphabet S

/-- C6, witness at Σ = {a, b}, S = "aba", k = 2, cap L = 1, state 0. -/
theorem C6_witness :
    (∀ c p, (c, p) ∈ ((levelTableL ['a', 'b'] ['a', 'b', 'a'] 2 1).getD 0
      (Entry.mk none [])).trans → 0 < p) ∧
    (∀ c p, (c, p) ∈ ((awareTable ['a', 'b'] ['a', 'b', 'a']).getD 0
      (Entry.mk none [])).trans → 0 < p) ∧
    (∀ c p, (c, p) ∈ ((generalTable ['a', 'b'] ['a', 'b', 'a']).getD 0
      (Entry.mk none [])).trans → 0 < p) ∧
    (∀ d, ((levelTableL ['a', 'b'] ['a', 'b', 'a'] 2 1).getD 0 (Entry.mk none [])).dflt =
      some d → 0 < d ∧ d ≤ (['a', 'b', 'a'] : List Char).length ∧
        levelOf 2 1 0 < levelOf 2 1 d ∧
        ∀ m, 0 < m → m < d → levelOf 2 1 m ≤ levelOf 2 1 0) ∧
    (∀ d, ((awareTable ['a', 'b'] ['a', 'b', 'a']).getD 0 (Entry.mk none [])).dflt =
      some d → 0 < d ∧ d ≤ (['a', 'b', 'a'] : List Char).length ∧
        levelOf 2 (lmax 2 2) 0 < levelOf 2 (lmax 2 2) d ∧
        ∀ m, 0 < m → m < d → levelOf 2 (lmax 2 2) m ≤ levelOf 2 (lmax 2 2) 0) ∧
    ((levelTableL ['a', 'b'] ['a', 'b', 'a'] 2 1).getD (['a', 'b', 'a'] : List Char).length
      (Entry.mk none [])).dflt = none ∧
    ((awareTable ['a', 'b'] ['a', 'b', 'a']).getD (['a', 'b', 'a'] : List Char).length
      (Entry.mk none [])).dflt = none ∧
    ((generalTable ['a', 'b'] ['a', 'b', 'a']).getD (['a', 'b', 'a'] : List Char).length
      (Entry.mk none [])).trans = [] :=
  C6_claim ['a', 'b'] ['a', 'b', 'a'] 2 1 0 (by decide) (by decide)

/-- C7, code bug: the level cap of the real program disagrees with the
claimed `Lmax = ceil(log_k σ)`.  At σ = 125, k = 5 the exact ceiling is
`lmax 5 125 = 3` (indeed `5 ^ 3 = 125`), but the source's floating-point
`ceil(log(125, 5))` evaluates to 4 because the float quotient lands just
above 3; running the faithful `_generateLevels` loop with that cap assigns
`level(625) = 4` to state 625, violating the claimed bound
`0 ≤ level(i) ≤ ceil(log_k σ)`. -/
theorem C7_claim :
    lmax 5 125 = 3 ∧ 5 ^ 3 = 125 ∧
    (genLevels 5 4 625).getD 625 0 = 4 ∧
    ¬ (genLevels 5 4 625).getD 625 0 ≤ lmax 5 125 :=
  ⟨by decide, by decide, by decide, by decide⟩

/-- C8, confirmed: whenever `GetInfo` returns statistics for a built automaton
of any variant, the default and explicit transition counts add up to the edge
count, both ratios lie in [0, 1], and the two ratios sum to 1 (the edge count
is positive whenever `GetInfo` returns at all). -/
theorem C8_claim (alphabet : Alphabet) (S : List Char) (k : Nat) (d : AutomatonData) :
    (GetInfo alphabet (generalTable alphabet S) = some d →
      d.defaultTranstions + d.explicitTransitions = d.edgeCount ∧
      0 ≤ d.defaultRatio ∧ d.defaultRatio ≤ 1 ∧
      0 ≤ d.explicitRatio ∧ d.explicitRatio ≤ 1 ∧
      d.defaultRatio + d.explicitRatio = 1) ∧
    (GetInfo alphabet (levelTable alphabet S k) = some d →
      d.defaultTranstions + d.explicitTransitions = d.edgeCount ∧
      0 ≤ d.defaultRatio ∧ d.defaultRatio ≤ 1 ∧
      0 ≤ d.explicitRatio ∧ d.explicitRatio ≤ 1 ∧
      d.defaultRatio + d.explicitRatio = 1) ∧
    (GetInfo alphabet (awareTable alphabet S) = some d →
      d.defaultTranstions + d.explicitTransitions = d.edgeCount ∧
      0 ≤ d.defaultRatio ∧ d.defaultRatio ≤ 1 ∧
      0 ≤ d.explicitRatio ∧ d.explicitRatio ≤ 1 ∧
      d.defaultRatio + d.explicitRatio = 1) :=
  ⟨fun h => GetInfo_props alphabet _ d h, fun h => GetInfo_props alphabet _ d h,
    fun h => GetInfo_props alphabet _ d h⟩

/-- C8, witness: the general automaton for Σ = {a}, S = "a" has statistics
vertexCount 2, edgeCount 1, 0 defaults, 1 explicit, ratios 0 and 1. -/
theorem C8_witness :
    (0 : Nat) + 1 = 1 ∧
    (0 : ℚ) ≤ (0 : ℚ) / (1 : ℚ) ∧ (0 : ℚ) / (1 : ℚ) ≤ 1 ∧
    (0 : ℚ) ≤ (1 : ℚ) / (1 : ℚ) ∧ (1 : ℚ) / (1 : ℚ) ≤ 1 ∧
    (0 : ℚ) / (1 : ℚ) + (1 : ℚ) / (1 : ℚ) = 1 :=
  (C8_claim ['a'] ['a'] 2
    (AutomatonData.mk 2 1 0 1 ((0 : ℚ) / (1 : ℚ)) ((1 : ℚ) / (1 : ℚ))
      (1 - (1 : ℚ) / (((2 : ℚ) + 1) * (1 : ℚ))))).1 rfl

/-- C9, confirmed: in the Level-k table (with any level cap L, covering the
cap the floating-point Lmax computation actually produces) an explicit
transition for c out of state s is recorded iff its target is the nearest
occurrence of c, lies at or before the next higher-level state, and is
strictly before the terminal state n — transitions into state n are
omitted; the alphabet-aware and general recording rules instead allow
targets up to and including state n. -/
theorem C9_claim (alphabet : Alphabet) (S : List Char) (k L j : Nat) (c : Char) (p : Nat)
    (hcl : ∀ c' ∈ S, c' ∈ alphabet) (hj : j ≤ S.length) :
    ((c, p) ∈ ((levelTableL alphabet S k L).getD j (Entry.mk none [])).trans ↔
      c ∈ alphabet ∧ p = nextOcc S j c ∧
        p ≤ nextHigher k L S.length j ∧ p < S.length) ∧
    ((c, p) ∈ ((awareTable alphabet S).getD j (Entry.mk none [])).trans ↔
      c ∈ alphabet ∧ p = nextOcc S j c ∧
        p ≤ nextHigher 2 (lmax 2 alphabet.length) S.length j ∧ p ≤ S.length) ∧
    ((c, p) ∈ ((generalTable alphabet S).getD j (Entry.mk none [])).trans ↔
      c ∈ alphabet ∧ p = nextOcc S j c ∧ p ≤ S.length) :=
  ⟨levelTable_trans_mem alphabet S k L j c p hcl hj,
    awareTable_trans_mem alphabet S j c p hcl hj,
    generalTable_trans_mem alphabet S j c p hcl hj⟩

/-- C9, witness at Σ = {a, b}, S = "ab", k = 2, cap L = 1, state 0, symbol b,
target 2: the target is the terminal state n = 2, recorded by the
alphabet-aware and general rules but excluded by the Level-k rule. -/
theorem C9_witness :
    (('b', 2) ∈ ((levelTableL ['a', 'b'] ['a', 'b'] 2 1).getD 0 (Entry.mk none [])).trans ↔
      'b' ∈ (['a', 'b'] : Alphabet) ∧ 2 = nextOcc ['a', 'b'] 0 'b' ∧
        2 ≤ nextHigher 2 1 (['a', 'b'] : List Char).length 0 ∧
        2 < (['a', 'b'] : List Char).length) ∧
    (('b', 2) ∈ ((awareTable ['a', 'b'] ['a', 'b']).getD 0 (Entry.mk none [])).trans ↔
      'b' ∈ (['a', 'b'] : Alphabet) ∧ 2 = nextOcc ['a', 'b'] 0 'b' ∧
        2 ≤ nextHigher 2 (lmax 2 2) (['a', 'b'] : List Char).length 0 ∧
        2 ≤ (['a', 'b'] : List Char).length) ∧
    (('b', 2) ∈ ((generalTable ['a', 'b'] ['a', 'b']).getD 0 (Entry.mk none [])).trans ↔
      'b' ∈ (['a', 'b'] : Alphabet) ∧ 2 = nextOcc ['a', 'b'] 0 'b' ∧
        2 ≤ (['a', 'b'] : List Char).length) :=
  C9_claim ['a', 'b'] ['a', 'b'] 2 1 0 'b' 2 (by decide) (by decide)

/-- C10, confirmed: on the dictionaries that actually occur during the
alphabet-aware construction both branches of the span test record exactly the
same transitions — character c maps to its nearest occurrence precisely when
that occurrence exists (1 ≤ pos ≤ n) and is at or before the next
higher-level state — so the whole built table equals the one built with the
span test removed. -/
theorem C10_claim (alphabet : Alphabet) (S : List Char) (j nextSt : Nat)
    (hcl : ∀ c ∈ S, c ∈ alphabet) :
    denseTrans alphabet S.length nextSt (ncpClosed alphabet S j) =
      sparseTrans S.length nextSt (ncpClosed alphabet S j) ∧
    (∀ c p, (c, p) ∈ denseTrans alphabet S.length nextSt (ncpClosed alphabet S j) ↔
      c ∈ alphabet ∧ p = nextOcc S j c ∧ 1 ≤ p ∧ p ≤ S.length ∧ p ≤ nextSt) ∧
    awareTable alphabet S = awareTableSparse alphabet S := by
  refine ⟨?_, ?_, awareTable_eq_sparse alphabet S hcl⟩
  · rw [denseTrans_closed, sparseTrans_closed]
  · intro c p
    rw [denseTrans_closed]
    rw [mem_filterMap_fun alphabet (fun a => nextOcc S j a)
      (fun a => 1 ≤ nextOcc S j a ∧ nextOcc S j a ≤ S.length ∧ nextOcc S j a ≤ nextSt) c p]
    constructor
    · rintro ⟨h1, h2, h3, h4, h5⟩
      exact ⟨h1, h2, by omega, by omega, by omega⟩
    · rintro ⟨h1, h2, h3, h4, h5⟩
      exact ⟨h1, h2, by omega, by omega, by omega⟩

/-- C10, witness at Σ = {a, b}, S = "aba", state 0, next-level state 2. -/
theorem C10_witness :
    denseTrans ['a', 'b'] (['a', 'b', 'a'] : List Char).length 2
        (ncpClosed ['a', 'b'] ['a', 'b', 'a'] 0) =
      sparseTrans (['a', 'b', 'a'] : List Char).length 2
        (ncpClosed ['a', 'b'] ['a', 'b', 'a'] 0) ∧
    (∀ c p, (c, p) ∈ denseTrans ['a', 'b'] (['a', 'b', 'a'] : List Char).length 2
        (ncpClosed ['a', 'b'] ['a', 'b', 'a'] 0) ↔
      c ∈ (['a', 'b'] : Alphabet) ∧ p = nextOcc ['a', 'b', 'a'] 0 c ∧ 1 ≤ p ∧
        p ≤ (['a', 'b', 'a'] : List Char).length ∧ p ≤ 2) ∧
    awareTable ['a', 'b'] ['a', 'b', 'a'] = awareTableSparse ['a', 'b'] ['a', 'b', 'a'] :=
  C10_claim ['a', 'b'] ['a', 'b', 'a'] 0 2 (by decide)
